import Mathlib

/-!
Verification of the `SmoothMovementManager` animation engine
(`src/electron/SmoothMovementManager.ts`).

The engine is single-threaded and timer-driven, so it is embedded as an
explicit state machine: JS numbers become rationals, `Date.now()` becomes a
`now : ℕ` field (milliseconds), `setTimeout`/`clearTimeout` become a queue of
defunctionalised callbacks keyed by timer ids, and the `animationTimers`
`Map<BrowserWindow, timer>` becomes an association list keyed by window id.
Every setter invocation (`setBounds`, `setOpacity`) and every `onComplete`
call is recorded in an event trace, tagged with the id of the public call
that created the step chain, so that claims about "which chain wrote what"
and "how often was a continuation invoked" are statable.

Fields of the TS class that no animation path ever reads
(`stepSize`, `headerPosition`, `windowPool` — the latter used only by
`animateLayout`, which no claim touches) are not modelled.
-/

set_option linter.unusedVariables false
set_option maxRecDepth 2000

namespace SmoothMovement

/-- Window geometry, as in Electron's `Rectangle`.  JS numbers are rationals. -/
structure Rect where
  x : ℚ
  y : ℚ
  width : ℚ
  height : ℚ
deriving DecidableEq, Repr

/-- `Partial<Rectangle>`: every field optional. -/
structure PRect where
  x : Option ℚ := none
  y : Option ℚ := none
  width : Option ℚ := none
  height : Option ℚ := none
deriving DecidableEq, Repr

/-- The state of one `BrowserWindow` as seen through the primitives the
manager uses: `getBounds`/`setBounds`, `getOpacity`/`setOpacity`,
`isDestroyed`. -/
structure Window where
  bounds : Rect
  opacity : ℚ
  destroyed : Bool
deriving DecidableEq, Repr

/-- Observable actions of the manager: setter invocations and `onComplete`
invocations.  `sid` is the instrumentation id of the public call (session)
that performed the action; `cb` identifies the caller-supplied callback. -/
inductive Event where
  | setBoundsEv (sid : ℕ) (win : ℕ) (r : Rect)
  | setOpacityEv (sid : ℕ) (win : ℕ) (v : ℚ)
  | completeEv (sid : ℕ) (cb : ℕ)
deriving DecidableEq, Repr

/-- The data captured by the `step` closure of `animateWindowBounds`
(lines 129–133): start snapshot, fully resolved target, start time,
effective duration and the optional completion callback. -/
structure BoundsSession where
  win : ℕ
  sid : ℕ
  startBounds : Rect
  target : Rect
  startTime : ℕ
  duration : ℚ
  onComplete : Option ℕ
deriving DecidableEq, Repr

/-- The data captured by the `step` closure of the legacy `animateWindow`
(lines 59–64): start snapshot, target x/y, the width/height taken from
`sizeOverride || start`, start time, duration, callback. -/
structure WinSession where
  win : ℕ
  sid : ℕ
  start : Rect
  targetX : ℚ
  targetY : ℚ
  width : ℚ
  height : ℚ
  startTime : ℕ
  duration : ℚ
  onComplete : Option ℕ
deriving DecidableEq, Repr

/-- The data captured by the `step` closure of `fade` (lines 96–97). -/
structure FadeSession where
  win : ℕ
  sid : ℕ
  startOpacity : ℚ
  toOpacity : ℚ
  startTime : ℕ
  duration : ℚ
  onComplete : Option ℕ
deriving DecidableEq, Repr

/-- A defunctionalised `setTimeout` callback: one of the three step closures. -/
inductive Job where
  | boundsStep (s : BoundsSession)
  | winStep (s : WinSession)
  | fadeStep (s : FadeSession)
deriving DecidableEq, Repr

/-- One pending `setTimeout`: its timer id, due time, and callback. -/
structure TimerEntry where
  tid : ℕ
  fireAt : ℕ
  job : Job
deriving DecidableEq, Repr

/-- The whole world: wall clock, the windows (keyed by id), the pending
timeout queue, the manager's `animationTimers` map and `isAnimating` flag,
and the observable event trace.  `nextTid`/`nextSid` are fresh-id counters. -/
structure World where
  now : ℕ
  windows : List (ℕ × Window)
  queue : List TimerEntry
  nextTid : ℕ
  timers : List (ℕ × ℕ)
  isAnimating : Bool
  events : List Event
  nextSid : ℕ
deriving DecidableEq, Repr

/-! ### Association-list helpers (the `Map` and the window registry) -/

/-- Update the window with id `i` by `f` (other windows untouched). -/
def updateW (ws : List (ℕ × Window)) (i : ℕ) (f : Window → Window) :
    List (ℕ × Window) :=
  ws.map (fun p => if p.1 = i then (p.1, f p.2) else p)

/-- `Map.set`: replace the value at an existing key, else add the pair. -/
def timersSet : List (ℕ × ℕ) → ℕ → ℕ → List (ℕ × ℕ)
  | [], i, t => [(i, t)]
  | p :: l, i, t => if p.1 = i then (i, t) :: l else p :: timersSet l i t

/-- `Map.delete`. -/
def timersDelete (l : List (ℕ × ℕ)) (i : ℕ) : List (ℕ × ℕ) :=
  l.filter (fun p => p.1 ≠ i)

/-- `clearTimeout t`: the pending timeout with id `t` (if any) never fires. -/
def clearT (q : List TimerEntry) (t : ℕ) : List TimerEntry :=
  q.filter (fun e => e.tid ≠ t)

/-- `win.isDestroyed()` through the registry; a dangling id acts destroyed
(it never arises in a run). -/
def winDestroyedB (ws : List (ℕ × Window)) (i : ℕ) : Bool :=
  match ws.lookup i with
  | some wd => wd.destroyed
  | none => true

/-- `win.getBounds()` (total, with an unreachable default). -/
def getBoundsD (ws : List (ℕ × Window)) (i : ℕ) : Rect :=
  (ws.lookup i).elim ⟨0, 0, 0, 0⟩ Window.bounds

/-- `win.getOpacity()` (total, with an unreachable default). -/
def getOpacityD (ws : List (ℕ × Window)) (i : ℕ) : ℚ :=
  (ws.lookup i).elim 1 Window.opacity

/-! ### The numeric core -/

/-- JS `Math.round`: round half toward positive infinity. -/
def jsRound (q : ℚ) : ℤ := ⌊q + 1 / 2⌋

/-- `Math.min(1, (now - startTime) / duration)` (lines 71, 103, 140). -/
def progressOf (elapsed dur : ℚ) : ℚ := min 1 (elapsed / dur)

/-- `1 - Math.pow(1 - p, 3)` — the cubic ease-out (lines 72, 104, 141). -/
def easedOf (elapsed dur : ℚ) : ℚ := 1 - (1 - progressOf elapsed dur) ^ 3

/-- `start + (target - start) * eased`. -/
def lerp (a b e : ℚ) : ℚ := a + (b - a) * e

/-- One interpolated-and-rounded coordinate:
`Math.round(start + (target - start) * eased)` as a rational. -/
def writtenCoord (a b dur elapsed : ℚ) : ℚ :=
  (jsRound (lerp a b (easedOf elapsed dur)) : ℚ)

/-- The rectangle written by a bounds step at a given elapsed time
(lines 143–148). -/
def writtenBounds (s : BoundsSession) (elapsed : ℚ) : Rect :=
  ⟨writtenCoord s.startBounds.x s.target.x s.duration elapsed,
   writtenCoord s.startBounds.y s.target.y s.duration elapsed,
   writtenCoord s.startBounds.width s.target.width s.duration elapsed,
   writtenCoord s.startBounds.height s.target.height s.duration elapsed⟩

/-- The rectangle written by a legacy `animateWindow` step (lines 73–76):
x/y interpolated and rounded, width/height held fixed and not rounded. -/
def winWritten (s : WinSession) (elapsed : ℚ) : Rect :=
  ⟨writtenCoord s.start.x s.targetX s.duration elapsed,
   writtenCoord s.start.y s.targetY s.duration elapsed,
   s.width, s.height⟩

/-- The opacity written by a fade step (line 105); not rounded. -/
def fadeValue (a b dur elapsed : ℚ) : ℚ := lerp a b (easedOf elapsed dur)

/-- `{...startBounds, ...targetBounds}` (line 130): resolve a partial
rectangle against a base. -/
def mergeRect (base : Rect) (p : PRect) : Rect :=
  ⟨p.x.getD base.x, p.y.getD base.y,
   p.width.getD base.width, p.height.getD base.height⟩

/-- `options.duration || this.animationDuration` (lines 62, 132): JS `||`
treats `0` as falsy, so a caller-supplied `0` silently becomes the 300 ms
default. -/
def effDur (d : Option ℚ) : ℚ :=
  match d with
  | none => 300
  | some v => if v = 0 then 300 else v

/-- `duration = 250` destructuring default of `fade` (line 91): only a
missing value gets the default; an explicit `0` stays `0`. -/
def fadeDur (d : Option ℚ) : ℚ := d.getD 250

/-- `Date.now() - startTime` as a rational. -/
def elapsedAt (now startTime : ℕ) : ℚ := (now : ℚ) - (startTime : ℚ)

/-! ### Effects on the world -/

/-- `if (onComplete) onComplete()`. -/
def emitComplete (sid : ℕ) (cb : Option ℕ) (st : World) : World :=
  match cb with
  | some c => { st with events := st.events ++ [Event.completeEv sid c] }
  | none => st

/-- `win.setBounds(r)`. -/
def doSetBounds (sid i : ℕ) (r : Rect) (st : World) : World :=
  { st with
    windows := updateW st.windows i (fun wd => { wd with bounds := r }),
    events := st.events ++ [Event.setBoundsEv sid i r] }

/-- `win.setOpacity(v)`. -/
def doSetOpacity (sid i : ℕ) (v : ℚ) (st : World) : World :=
  { st with
    windows := updateW st.windows i (fun wd => { wd with opacity := v }),
    events := st.events ++ [Event.setOpacityEv sid i v] }

/-- `_isWindowValid` (lines 32–41).  `none` models a `null`/`undefined`
reference (JS `!win`; note no timer cleanup happens in that case, since the
guard is `win && this.animationTimers.has(win)`); for a destroyed window a
pending timer of that window is cleared and removed from the map. -/
def isWindowValid (st : World) : Option ℕ → Bool × World
  | none => (false, st)
  | some i =>
    if winDestroyedB st.windows i then
      match st.timers.lookup i with
      | some t =>
        (false, { st with queue := clearT st.queue t,
                          timers := timersDelete st.timers i })
      | none => (false, st)
    else (true, st)

/-! ### The three step closures (defunctionalised) -/

/-- The `step` closure of `animateWindowBounds` (lines 134–164). -/
def boundsStepRun (s : BoundsSession) (st : World) : World :=
  match isWindowValid st (some s.win) with
  | (false, st1) => emitComplete s.sid s.onComplete st1
  | (true, st1) =>
    let el := elapsedAt st1.now s.startTime
    let st2 := doSetBounds s.sid s.win (writtenBounds s el) st1
    if progressOf el s.duration < 1 then
      { st2 with
        queue := st2.queue ++ [⟨st2.nextTid, st2.now + 8, Job.boundsStep s⟩],
        nextTid := st2.nextTid + 1,
        timers := timersSet st2.timers s.win st2.nextTid }
    else
      let st3 := doSetBounds s.sid s.win s.target st2
      let st4 := { st3 with timers := timersDelete st3.timers s.win }
      let st5 :=
        if st4.timers.isEmpty then { st4 with isAnimating := false } else st4
      emitComplete s.sid s.onComplete st5

/-- The `step` closure of the legacy `animateWindow` (lines 65–87): never
touches the timer map, and its final write is the rounded interpolation at
`p = 1`, with no exact-target write. -/
def winStepRun (s : WinSession) (st : World) : World :=
  match isWindowValid st (some s.win) with
  | (false, st1) => emitComplete s.sid s.onComplete st1
  | (true, st1) =>
    let el := elapsedAt st1.now s.startTime
    let st2 := doSetBounds s.sid s.win (winWritten s el) st1
    if progressOf el s.duration < 1 then
      { st2 with
        queue := st2.queue ++ [⟨st2.nextTid, st2.now + 8, Job.winStep s⟩],
        nextTid := st2.nextTid + 1 }
    else
      emitComplete s.sid s.onComplete st2

/-- The `step` closure of `fade` (lines 99–113): never touches the timer
map; final write is the exact target opacity (line 110). -/
def fadeStepRun (s : FadeSession) (st : World) : World :=
  match isWindowValid st (some s.win) with
  | (false, st1) => emitComplete s.sid s.onComplete st1
  | (true, st1) =>
    let el := elapsedAt st1.now s.startTime
    let st2 :=
      doSetOpacity s.sid s.win (fadeValue s.startOpacity s.toOpacity s.duration el) st1
    if progressOf el s.duration < 1 then
      { st2 with
        queue := st2.queue ++ [⟨st2.nextTid, st2.now + 8, Job.fadeStep s⟩],
        nextTid := st2.nextTid + 1 }
    else
      let st3 := doSetOpacity s.sid s.win s.toOpacity st2
      emitComplete s.sid s.onComplete st3

/-- Dispatch a due timeout callback. -/
def runJob : Job → World → World
  | Job.boundsStep s, st => boundsStepRun s st
  | Job.winStep s, st => winStepRun s st
  | Job.fadeStep s, st => fadeStepRun s st

/-! ### The public operations -/

/-- Allocate the instrumentation id for a public call. -/
def allocSid (st : World) : World := { st with nextSid := st.nextSid + 1 }

/-- Lines 118–120 of `animateWindowBounds`: `clearTimeout` any pending timer
for this window (without deleting its map entry). -/
def clearPending (oi : Option ℕ) (st : World) : World :=
  match oi with
  | some i =>
    match st.timers.lookup i with
    | some t => { st with queue := clearT st.queue t }
    | none => st
  | none => st

/-- `animateWindowBounds` (lines 117–166).  Lines 118–120 clear (but do not
delete from the map) any pending timer for this window before anything
else; then the validity check, the `isAnimating := true` write, the start
snapshot, the merge, and the synchronous first `step()`. -/
def animateWindowBounds (oi : Option ℕ) (target : PRect) (dur : Option ℚ)
    (cb : Option ℕ) (st : World) : World :=
  let sid := st.nextSid
  let st1 := clearPending oi (allocSid st)
  match isWindowValid st1 oi with
  | (false, st2) => emitComplete sid cb st2
  | (true, st2) =>
    match oi with
    | none => st2   -- unreachable: `isWindowValid _ none` is `(false, _)`
    | some i =>
      let st3 := { st2 with isAnimating := true }
      let sb := getBoundsD st3.windows i
      boundsStepRun ⟨i, sid, sb, mergeRect sb target, st3.now, effDur dur, cb⟩ st3

/-- The legacy `animateWindow` (lines 53–89): no timer-map interaction at
all. -/
def animateWindow (oi : Option ℕ) (tx ty : ℚ) (size : Option (ℚ × ℚ))
    (dur : Option ℚ) (cb : Option ℕ) (st : World) : World :=
  let sid := st.nextSid
  match isWindowValid (allocSid st) oi with
  | (false, st1) => emitComplete sid cb st1
  | (true, st1) =>
    match oi with
    | none => st1   -- unreachable
    | some i =>
      let sb := getBoundsD st1.windows i
      let wh := match size with | some p => p | none => (sb.width, sb.height)
      winStepRun ⟨i, sid, sb, tx, ty, wh.1, wh.2, st1.now, effDur dur, cb⟩ st1

/-- `fade` (lines 91–115); `from ?? win.getOpacity()` is a nullish default,
so an explicit `0` stays `0`. -/
def fade (oi : Option ℕ) (fr : Option ℚ) (toOpacity : ℚ) (dur : Option ℚ)
    (cb : Option ℕ) (st : World) : World :=
  let sid := st.nextSid
  match isWindowValid (allocSid st) oi with
  | (false, st1) => emitComplete sid cb st1
  | (true, st1) =>
    match oi with
    | none => st1   -- unreachable
    | some i =>
      fadeStepRun
        ⟨i, sid, fr.getD (getOpacityD st1.windows i), toOpacity,
         st1.now, fadeDur dur, cb⟩ st1

/-- `animateWindowPosition` (lines 168–176): validity check, then merge the
partial `{x?, y?}` onto the current bounds into a full rectangle, then
delegate to `animateWindowBounds`. -/
def animateWindowPosition (oi : Option ℕ) (px py : Option ℚ) (dur : Option ℚ)
    (cb : Option ℕ) (st : World) : World :=
  let sid := st.nextSid
  match isWindowValid (allocSid st) oi with
  | (false, st1) => emitComplete sid cb st1
  | (true, st1) =>
    match oi with
    | none => st1   -- unreachable
    | some i =>
      let cur := getBoundsD st1.windows i
      animateWindowBounds (some i)
        ⟨some (px.getD cur.x), some (py.getD cur.y),
         some cur.width, some cur.height⟩ dur cb st1

/-- Is this timer id a value of the `animationTimers` map? -/
def tidTracked (timers : List (ℕ × ℕ)) (t : ℕ) : Bool :=
  timers.any (fun p => p.2 = t)

/-- `destroy` (lines 193–198): `clearTimeout` every timer stored in the map,
clear the map, reset the flag.  Only map-tracked timeouts are cancelled. -/
def destroyMgr (st : World) : World :=
  { st with
    queue := st.queue.filter (fun e => ¬ tidTracked st.timers e.tid),
    timers := [],
    isAnimating := false }

/-! ### The environment: external commands and the event loop -/

/-- The window subsystem destroys a window (external to the manager). -/
def destroyWin (i : ℕ) (st : World) : World :=
  { st with windows := updateW st.windows i (fun wd => { wd with destroyed := true }) }

/-- Pick the pending timeout with the earliest due time (first one on ties,
as the JS event loop does), returning it and the rest of the queue. -/
def pickEarliest : List TimerEntry → Option (TimerEntry × List TimerEntry)
  | [] => none
  | e :: rest =>
    match pickEarliest rest with
    | none => some (e, [])
    | some (e2, rest2) =>
      if e2.fireAt < e.fireAt then some (e2, e :: rest2) else some (e, rest)

/-- Advance the clock to the earliest due timeout and run it; a world with
an empty queue is quiescent. -/
def fireNext (st : World) : World :=
  match pickEarliest st.queue with
  | none => st
  | some (e, rest) =>
    runJob e.job { st with now := max st.now e.fireAt, queue := rest }

/-- Everything the environment can do to the engine. -/
inductive Cmd where
  | animW (w : Option ℕ) (tx ty : ℚ) (size : Option (ℚ × ℚ))
      (d : Option ℚ) (cb : Option ℕ)
  | animB (w : Option ℕ) (t : PRect) (d : Option ℚ) (cb : Option ℕ)
  | animP (w : Option ℕ) (px py : Option ℚ) (d : Option ℚ) (cb : Option ℕ)
  | fadeC (w : Option ℕ) (fr : Option ℚ) (toOpacity : ℚ)
      (d : Option ℚ) (cb : Option ℕ)
  | mgrDestroy
  | winKill (i : ℕ)
  | tick (ms : ℕ)
  | fire
deriving Repr

/-- One environment step. -/
def stepCmd : Cmd → World → World
  | Cmd.animW w tx ty size d cb, st => animateWindow w tx ty size d cb st
  | Cmd.animB w t d cb, st => animateWindowBounds w t d cb st
  | Cmd.animP w px py d cb, st => animateWindowPosition w px py d cb st
  | Cmd.fadeC w fr v d cb, st => fade w fr v d cb st
  | Cmd.mgrDestroy, st => destroyMgr st
  | Cmd.winKill i, st => destroyWin i st
  | Cmd.tick ms, st => { st with now := st.now + ms }
  | Cmd.fire, st => fireNext st

/-- Run a command list. -/
def run : List Cmd → World → World
  | [], st => st
  | c :: cs, st => run cs (stepCmd c st)

/-- A fresh engine over a given set of windows: clock at 0, nothing pending,
flag down (constructor, lines 18–26). -/
def initWorld (ws : List (ℕ × Window)) : World :=
  ⟨0, ws, [], 0, [], false, [], 0⟩

/-- A live 100×100 window at the origin, full opacity. -/
def testWin : Window := ⟨⟨0, 0, 100, 100⟩, 1, false⟩

/-- A fresh engine owning the single window `0 ↦ testWin`. -/
def w100 : World := initWorld [(0, testWin)]

/-!
## Small laws of the embedded primitives
-/

theorem lookup_updateW_self (ws : List (ℕ × Window)) (i : ℕ)
    (f : Window → Window) :
    (updateW ws i f).lookup i = (ws.lookup i).map f := by
  induction ws with
  | nil => simp [updateW]
  | cons p l ih =>
    rcases p with ⟨k, v⟩
    by_cases h : k = i
    · subst h
      simp [updateW, List.lookup_cons]
    · simpa [updateW, List.lookup_cons, h, beq_false_of_ne (Ne.symm h)] using ih

theorem updateW_updateW (ws : List (ℕ × Window)) (i : ℕ)
    (f g : Window → Window) :
    updateW (updateW ws i f) i g = updateW ws i (fun w => g (f w)) := by
  induction ws with
  | nil => simp [updateW]
  | cons p l ih =>
    rcases p with ⟨k, v⟩
    by_cases h : k = i <;> simp [updateW, h] at ih ⊢ <;> exact ih

theorem lookup_timersSet_self (l : List (ℕ × ℕ)) (i t : ℕ) :
    (timersSet l i t).lookup i = some t := by
  induction l with
  | nil => simp [timersSet, List.lookup_cons]
  | cons p l ih =>
    rcases p with ⟨k, v⟩
    by_cases h : k = i
    · subst h
      simp [timersSet, List.lookup_cons]
    · simp [timersSet, h, List.lookup_cons, beq_false_of_ne (Ne.symm h), ih]

theorem timersDelete_timersSet (l : List (ℕ × ℕ)) (i t : ℕ) :
    timersDelete (timersSet l i t) i = timersDelete l i := by
  induction l with
  | nil => simp [timersSet, timersDelete]
  | cons p l ih =>
    rcases p with ⟨k, v⟩
    by_cases h : k = i
    · subst h
      simp [timersSet, timersDelete]
    · have h2 := ih
      simp only [timersDelete, ne_eq, decide_not] at h2
      simp only [timersDelete, ne_eq, decide_not]
      simp [timersSet, h, h2]

theorem fireNext_quiet (st : World) (h : st.queue = []) : fireNext st = st := by
  simp [fireNext, h, pickEarliest]

theorem run_fire_quiet (n : ℕ) (st : World) (h : st.queue = []) :
    run (List.replicate n Cmd.fire) st = st := by
  induction n with
  | zero => rfl
  | succ n ih => simpa [run, stepCmd, fireNext_quiet st h] using ih

theorem winDestroyedB_false (ws : List (ℕ × Window)) (i : ℕ) (wd : Window)
    (hl : ws.lookup i = some wd) (hd : wd.destroyed = false) :
    winDestroyedB ws i = false := by
  simp [winDestroyedB, hl, hd]

theorem isWindowValid_valid (st : World) (i : ℕ)
    (h : winDestroyedB st.windows i = false) :
    isWindowValid st (some i) = (true, st) := by
  simp [isWindowValid, h]

theorem getBoundsD_of_lookup (ws : List (ℕ × Window)) (i : ℕ) (wd : Window)
    (hl : ws.lookup i = some wd) : getBoundsD ws i = wd.bounds := by
  simp [getBoundsD, hl]

/-! ### The numeric core: round, progress, easing, interpolation -/

theorem jsRound_intCast (n : ℤ) : jsRound (n : ℚ) = n := by
  rw [jsRound, Int.floor_eq_iff]
  constructor <;> push_cast <;> linarith

theorem jsRound_mono {a b : ℚ} (h : a ≤ b) : jsRound a ≤ jsRound b :=
  Int.floor_le_floor (by linarith)

theorem progressOf_nonneg {e d : ℚ} (he : 0 ≤ e) (hd : 0 < d) :
    0 ≤ progressOf e d :=
  le_min one_pos.le (div_nonneg he hd.le)

theorem progressOf_le_one (e d : ℚ) : progressOf e d ≤ 1 :=
  min_le_left 1 _

theorem progressOf_mono {e1 e2 d : ℚ} (hd : 0 < d) (h : e1 ≤ e2) :
    progressOf e1 d ≤ progressOf e2 d :=
  min_le_min le_rfl (by gcongr)

theorem progressOf_eq_one {e d : ℚ} (hd : 0 < d) (h : d ≤ e) :
    progressOf e d = 1 :=
  min_eq_left ((one_le_div hd).2 h)

theorem progressOf_lt_one_iff {e d : ℚ} (hd : 0 < d) :
    progressOf e d < 1 ↔ e < d := by
  constructor
  · intro h
    by_contra hc
    simp [progressOf_eq_one hd (not_lt.1 hc)] at h
  · intro h
    have hlt : e / d < 1 := (div_lt_one hd).2 h
    exact lt_of_le_of_lt (min_le_right 1 (e / d)) hlt

theorem easedOf_mono {e1 e2 d : ℚ} (hd : 0 < d) (h1 : 0 ≤ e1) (h : e1 ≤ e2) :
    easedOf e1 d ≤ easedOf e2 d := by
  have p1 := progressOf_mono hd h
  have h2 : progressOf e2 d ≤ 1 := progressOf_le_one e2 d
  have h3 : (0:ℚ) ≤ 1 - progressOf e2 d := by linarith
  have : (1 - progressOf e2 d) ^ 3 ≤ (1 - progressOf e1 d) ^ 3 :=
    pow_le_pow_left₀ h3 (by linarith) 3
  simp only [easedOf]
  linarith

theorem easedOf_nonneg {e d : ℚ} (hd : 0 < d) (he : 0 ≤ e) :
    0 ≤ easedOf e d := by
  have h1 : progressOf e d ≤ 1 := progressOf_le_one e d
  have h3 : (0:ℚ) ≤ 1 - progressOf e d := by linarith
  have : (1 - progressOf e d) ^ 3 ≤ 1 := by
    calc (1 - progressOf e d) ^ 3 ≤ 1 ^ 3 :=
          pow_le_pow_left₀ h3 (by
            have := progressOf_nonneg he hd
            linarith) 3
      _ = 1 := one_pow 3
  simp only [easedOf]
  linarith

theorem easedOf_le_one {e d : ℚ} (hd : 0 < d) (he : 0 ≤ e) :
    easedOf e d ≤ 1 := by
  have h1 : progressOf e d ≤ 1 := progressOf_le_one e d
  have h0 : 0 ≤ progressOf e d := progressOf_nonneg he hd
  have : (0:ℚ) ≤ (1 - progressOf e d) ^ 3 := pow_nonneg (by linarith) 3
  simp only [easedOf]
  linarith

theorem easedOf_of_elapsed_ge {e d : ℚ} (hd : 0 < d) (h : d ≤ e) :
    easedOf e d = 1 := by
  simp [easedOf, progressOf_eq_one hd h]

theorem lerp_zero (a b : ℚ) : lerp a b 0 = a := by simp [lerp]

theorem lerp_one (a b : ℚ) : lerp a b 1 = b := by simp [lerp]

theorem lerp_mono_of_le {a b e1 e2 : ℚ} (hab : a ≤ b) (h : e1 ≤ e2) :
    lerp a b e1 ≤ lerp a b e2 := by
  have := mul_le_mul_of_nonneg_left h (by linarith : (0:ℚ) ≤ b - a)
  simp only [lerp]
  linarith

theorem lerp_antitone_of_ge {a b e1 e2 : ℚ} (hab : b ≤ a) (h : e1 ≤ e2) :
    lerp a b e2 ≤ lerp a b e1 := by
  have := mul_le_mul_of_nonneg_left h (by linarith : (0:ℚ) ≤ a - b)
  simp only [lerp]
  linarith

theorem lerp_between {a b e : ℚ} (h0 : 0 ≤ e) (h1 : e ≤ 1) :
    min a b ≤ lerp a b e ∧ lerp a b e ≤ max a b := by
  rcases le_total a b with hab | hab
  · rw [min_eq_left hab, max_eq_right hab]
    exact ⟨by simpa [lerp_zero] using lerp_mono_of_le hab h0,
      by simpa [lerp_one] using lerp_mono_of_le hab h1⟩
  · rw [min_eq_right hab, max_eq_left hab]
    exact ⟨by simpa [lerp_one] using lerp_antitone_of_ge hab h1,
      by simpa [lerp_zero] using lerp_antitone_of_ge hab h0⟩

theorem writtenCoord_mono_of_le {a b : ℚ} (dur : ℚ) {e1 e2 : ℚ}
    (hd : 0 < dur) (hab : a ≤ b) (h0 : 0 ≤ e1) (h : e1 ≤ e2) :
    writtenCoord a b dur e1 ≤ writtenCoord a b dur e2 := by
  unfold writtenCoord
  exact_mod_cast jsRound_mono (lerp_mono_of_le hab (easedOf_mono hd h0 h))

theorem writtenCoord_antitone_of_ge {a b : ℚ} (dur : ℚ) {e1 e2 : ℚ}
    (hd : 0 < dur) (hab : b ≤ a) (h0 : 0 ≤ e1) (h : e1 ≤ e2) :
    writtenCoord a b dur e2 ≤ writtenCoord a b dur e1 := by
  unfold writtenCoord
  exact_mod_cast jsRound_mono (lerp_antitone_of_ge hab (easedOf_mono hd h0 h))

theorem writtenCoord_between {a b : ℤ} (dur : ℚ) {e : ℚ}
    (hd : 0 < dur) (h0 : 0 ≤ e) :
    min (a : ℚ) (b : ℚ) ≤ writtenCoord a b dur e ∧
      writtenCoord a b dur e ≤ max (a : ℚ) (b : ℚ) := by
  obtain ⟨hl, hr⟩ :=
    lerp_between (a := (a : ℚ)) (b := (b : ℚ))
      (easedOf_nonneg hd h0) (easedOf_le_one hd h0)
  have hmin : min (a : ℚ) (b : ℚ) = ((min a b : ℤ) : ℚ) := by push_cast; rfl
  have hmax : max (a : ℚ) (b : ℚ) = ((max a b : ℤ) : ℚ) := by push_cast; rfl
  have hcmin : ((min a b : ℤ) : ℚ) ≤ lerp (a : ℚ) (b : ℚ) (easedOf e dur) := by
    rw [← hmin]
    exact hl
  have hcmax : lerp (a : ℚ) (b : ℚ) (easedOf e dur) ≤ ((max a b : ℤ) : ℚ) := by
    rw [← hmax]
    exact hr
  have h1 := jsRound_mono hcmin
  have h2 := jsRound_mono hcmax
  rw [jsRound_intCast] at h1 h2
  constructor
  · rw [hmin, writtenCoord]
    exact_mod_cast h1
  · rw [hmax, writtenCoord]
    exact_mod_cast h2

theorem writtenCoord_const (a : ℤ) (dur e : ℚ) :
    writtenCoord (a : ℚ) (a : ℚ) dur e = (a : ℚ) := by
  have : lerp (a : ℚ) (a : ℚ) (easedOf e dur) = (a : ℚ) := by
    simp [lerp]
  rw [writtenCoord, this, jsRound_intCast]

theorem writtenCoord_done {b : ℚ} (a : ℚ) {dur e : ℚ}
    (hd : 0 < dur) (he : dur ≤ e) :
    writtenCoord a b dur e = (jsRound b : ℚ) := by
  rw [writtenCoord, easedOf_of_elapsed_ge hd he, lerp_one]

/-! ### Projection laws of the step effects -/

theorem emitComplete_windows (sid : ℕ) (cb : Option ℕ) (st : World) :
    (emitComplete sid cb st).windows = st.windows := by
  cases cb <;> simp [emitComplete]

theorem emitComplete_timers (sid : ℕ) (cb : Option ℕ) (st : World) :
    (emitComplete sid cb st).timers = st.timers := by
  cases cb <;> simp [emitComplete]

theorem emitComplete_isAnimating (sid : ℕ) (cb : Option ℕ) (st : World) :
    (emitComplete sid cb st).isAnimating = st.isAnimating := by
  cases cb <;> simp [emitComplete]

theorem emitComplete_queue (sid : ℕ) (cb : Option ℕ) (st : World) :
    (emitComplete sid cb st).queue = st.queue := by
  cases cb <;> simp [emitComplete]

/-- The completion branch of the bounds step (lines 154–163): once
`elapsed ≥ duration`, the last write is the exact resolved target. -/
theorem boundsStepRun_complete_bounds (s : BoundsSession) (st : World)
    (wd : Window) (hl : st.windows.lookup s.win = some wd)
    (hdm : wd.destroyed = false) (hd : 0 < s.duration)
    (he : s.duration ≤ elapsedAt st.now s.startTime) :
    getBoundsD (boundsStepRun s st).windows s.win = s.target := by
  have hv := winDestroyedB_false _ _ _ hl hdm
  have hp : ¬ progressOf (elapsedAt st.now s.startTime) s.duration < 1 := by
    rw [progressOf_eq_one hd he]
    exact lt_irrefl 1
  rw [boundsStepRun, isWindowValid_valid st s.win hv]
  simp only [if_neg hp, emitComplete_windows]
  split <;>
    simp [doSetBounds, getBoundsD, updateW_updateW, lookup_updateW_self, hl]

/-- The completion branch of `fade`'s step (lines 109–112): the last write
is the exact target opacity. -/
theorem fadeStepRun_complete_opacity (s : FadeSession) (st : World)
    (wd : Window) (hl : st.windows.lookup s.win = some wd)
    (hdm : wd.destroyed = false) (hd : 0 < s.duration)
    (he : s.duration ≤ elapsedAt st.now s.startTime) :
    getOpacityD (fadeStepRun s st).windows s.win = s.toOpacity := by
  have hv := winDestroyedB_false _ _ _ hl hdm
  have hp : ¬ progressOf (elapsedAt st.now s.startTime) s.duration < 1 := by
    rw [progressOf_eq_one hd he]
    exact lt_irrefl 1
  rw [fadeStepRun, isWindowValid_valid st s.win hv]
  simp only [if_neg hp, emitComplete_windows]
  simp [doSetOpacity, getOpacityD, updateW_updateW, lookup_updateW_self, hl]

/-- The final step of the legacy `animateWindow` (lines 71–88): at
`p ≥ 1` the write is the *rounded* interpolation at eased value 1, i.e.
`Math.round(targetX)/Math.round(targetY)` — there is no exact-target
write. -/
theorem winStepRun_complete_bounds (s : WinSession) (st : World)
    (wd : Window) (hl : st.windows.lookup s.win = some wd)
    (hdm : wd.destroyed = false) (hd : 0 < s.duration)
    (he : s.duration ≤ elapsedAt st.now s.startTime) :
    getBoundsD (winStepRun s st).windows s.win =
      ⟨(jsRound s.targetX : ℚ), (jsRound s.targetY : ℚ), s.width, s.height⟩ := by
  have hv := winDestroyedB_false _ _ _ hl hdm
  have hp : ¬ progressOf (elapsedAt st.now s.startTime) s.duration < 1 := by
    rw [progressOf_eq_one hd he]
    exact lt_irrefl 1
  rw [winStepRun, isWindowValid_valid st s.win hv]
  simp only [if_neg hp, emitComplete_windows]
  simp [doSetBounds, getBoundsD, lookup_updateW_self, hl, winWritten,
    writtenCoord_done _ hd he]

/-! ### Key-uniqueness of the timer table -/

theorem mem_keys_timersSet {l : List (ℕ × ℕ)} {i t j : ℕ}
    (h : j ∈ (timersSet l i t).map Prod.fst) :
    j = i ∨ j ∈ l.map Prod.fst := by
  induction l with
  | nil => simpa [timersSet] using h
  | cons p l ih =>
    by_cases hp : p.1 = i
    · simp only [timersSet, if_pos hp, List.map_cons, List.mem_cons] at h
      rcases h with h | h
      · exact Or.inl h
      · exact Or.inr (by simp [h])
    · simp only [timersSet, if_neg hp, List.map_cons, List.mem_cons] at h
      rcases h with h | h
      · exact Or.inr (by simp [h])
      · rcases ih h with h2 | h2
        · exact Or.inl h2
        · exact Or.inr (by simp [h2])

theorem nodup_timersSet {l : List (ℕ × ℕ)} (i t : ℕ)
    (h : (l.map Prod.fst).Nodup) :
    ((timersSet l i t).map Prod.fst).Nodup := by
  induction l with
  | nil => simp [timersSet]
  | cons p l ih =>
    simp only [List.map_cons, List.nodup_cons] at h
    by_cases hp : p.1 = i
    · simp only [timersSet, if_pos hp, List.map_cons, List.nodup_cons]
      exact ⟨by rw [← hp]; exact h.1, h.2⟩
    · simp only [timersSet, if_neg hp, List.map_cons, List.nodup_cons]
      refine ⟨fun hmem => ?_, ih h.2⟩
      rcases mem_keys_timersSet hmem with h2 | h2
      · exact hp (h2 ▸ rfl)
      · exact h.1 h2

theorem nodup_timersDelete {l : List (ℕ × ℕ)} (i : ℕ)
    (h : (l.map Prod.fst).Nodup) :
    ((timersDelete l i).map Prod.fst).Nodup :=
  (((List.filter_sublist l).map Prod.fst).nodup) h

/-- The timer-table key-uniqueness invariant. -/
def timersKeysNodup (st : World) : Prop := (st.timers.map Prod.fst).Nodup

theorem timersKeysNodup_isWindowValid (st : World) (oi : Option ℕ)
    (h : timersKeysNodup st) : timersKeysNodup (isWindowValid st oi).2 := by
  cases oi with
  | none => exact h
  | some i =>
    rw [isWindowValid]
    split
    · cases htl : st.timers.lookup i with
      | none => simpa [htl] using h
      | some t => simpa [htl] using nodup_timersDelete (l := st.timers) i h
    · exact h

theorem timersKeysNodup_emitComplete (sid : ℕ) (cb : Option ℕ) (st : World)
    (h : timersKeysNodup st) : timersKeysNodup (emitComplete sid cb st) := by
  unfold timersKeysNodup
  rw [emitComplete_timers]
  exact h

theorem timersKeysNodup_boundsStepRun (s : BoundsSession) (st : World)
    (h : timersKeysNodup st) : timersKeysNodup (boundsStepRun s st) := by
  have h1 := timersKeysNodup_isWindowValid st (some s.win) h
  rw [boundsStepRun]
  rcases hvv : isWindowValid st (some s.win) with ⟨ok, st1⟩
  rw [hvv] at h1
  cases ok
  · exact timersKeysNodup_emitComplete _ _ _ h1
  · simp only [timersKeysNodup, doSetBounds]
    split
    · exact nodup_timersSet _ _ h1
    · split <;>
        simpa [emitComplete_timers] using nodup_timersDelete (l := st1.timers) s.win h1

theorem timersKeysNodup_winStepRun (s : WinSession) (st : World)
    (h : timersKeysNodup st) : timersKeysNodup (winStepRun s st) := by
  have h1 := timersKeysNodup_isWindowValid st (some s.win) h
  rw [winStepRun]
  rcases hvv : isWindowValid st (some s.win) with ⟨ok, st1⟩
  rw [hvv] at h1
  cases ok
  · exact timersKeysNodup_emitComplete _ _ _ h1
  · simp only [timersKeysNodup, doSetBounds]
    split
    · exact h1
    · simpa [emitComplete_timers] using h1

theorem timersKeysNodup_fadeStepRun (s : FadeSession) (st : World)
    (h : timersKeysNodup st) : timersKeysNodup (fadeStepRun s st) := by
  have h1 := timersKeysNodup_isWindowValid st (some s.win) h
  rw [fadeStepRun]
  rcases hvv : isWindowValid st (some s.win) with ⟨ok, st1⟩
  rw [hvv] at h1
  cases ok
  · exact timersKeysNodup_emitComplete _ _ _ h1
  · simp only [timersKeysNodup, doSetOpacity]
    split
    · exact h1
    · simpa [emitComplete_timers, doSetOpacity] using h1

theorem timersKeysNodup_runJob (j : Job) (st : World)
    (h : timersKeysNodup st) : timersKeysNodup (runJob j st) := by
  cases j with
  | boundsStep s => exact timersKeysNodup_boundsStepRun s st h
  | winStep s => exact timersKeysNodup_winStepRun s st h
  | fadeStep s => exact timersKeysNodup_fadeStepRun s st h

theorem clearPending_timers (oi : Option ℕ) (st : World) :
    (clearPending oi st).timers = st.timers := by
  rw [clearPending.eq_def]
  cases oi with
  | none => rfl
  | some i => cases h : st.timers.lookup i <;> simp [h]

theorem timersKeysNodup_clearPending (oi : Option ℕ) (st : World)
    (h : timersKeysNodup st) : timersKeysNodup (clearPending oi st) := by
  unfold timersKeysNodup
  rw [clearPending_timers]
  exact h

theorem timersKeysNodup_animateWindowBounds (oi : Option ℕ) (target : PRect)
    (dur : Option ℚ) (cb : Option ℕ) (st : World) (h : timersKeysNodup st) :
    timersKeysNodup (animateWindowBounds oi target dur cb st) := by
  have h0 : timersKeysNodup (clearPending oi (allocSid st)) :=
    timersKeysNodup_clearPending oi (allocSid st) h
  simp only [animateWindowBounds]
  split
  next st2 heq =>
    have h1 := timersKeysNodup_isWindowValid _ oi h0
    rw [heq] at h1
    exact timersKeysNodup_emitComplete _ _ _ h1
  next st2 heq =>
    have h1 := timersKeysNodup_isWindowValid _ oi h0
    rw [heq] at h1
    cases oi with
    | none => exact h1
    | some i => exact timersKeysNodup_boundsStepRun _ _ h1

theorem timersKeysNodup_stepCmd (c : Cmd) (st : World)
    (h : timersKeysNodup st) : timersKeysNodup (stepCmd c st) := by
  cases c with
  | animW w tx ty size d cb =>
    rw [stepCmd]
    simp only [animateWindow]
    split
    next st2 heq =>
      have h1 := timersKeysNodup_isWindowValid (allocSid st) w h
      rw [heq] at h1
      exact timersKeysNodup_emitComplete _ _ _ h1
    next st2 heq =>
      have h1 := timersKeysNodup_isWindowValid (allocSid st) w h
      rw [heq] at h1
      cases w with
      | none => exact h1
      | some i => exact timersKeysNodup_winStepRun _ _ h1
  | animB w t d cb =>
    rw [stepCmd]
    exact timersKeysNodup_animateWindowBounds w t d cb st h
  | animP w px py d cb =>
    rw [stepCmd]
    simp only [animateWindowPosition]
    split
    next st2 heq =>
      have h1 := timersKeysNodup_isWindowValid (allocSid st) w h
      rw [heq] at h1
      exact timersKeysNodup_emitComplete _ _ _ h1
    next st2 heq =>
      have h1 := timersKeysNodup_isWindowValid (allocSid st) w h
      rw [heq] at h1
      cases w with
      | none => exact h1
      | some i => exact timersKeysNodup_animateWindowBounds _ _ _ _ _ h1
  | fadeC w fr v d cb =>
    rw [stepCmd]
    simp only [fade]
    split
    next st2 heq =>
      have h1 := timersKeysNodup_isWindowValid (allocSid st) w h
      rw [heq] at h1
      exact timersKeysNodup_emitComplete _ _ _ h1
    next st2 heq =>
      have h1 := timersKeysNodup_isWindowValid (allocSid st) w h
      rw [heq] at h1
      cases w with
      | none => exact h1
      | some i => exact timersKeysNodup_fadeStepRun _ _ h1
  | mgrDestroy => simp [stepCmd, destroyMgr, timersKeysNodup]
  | winKill i => exact h
  | tick ms => exact h
  | fire =>
    rw [stepCmd, fireNext]
    cases hq : pickEarliest st.queue with
    | none => exact h
    | some pr => exact timersKeysNodup_runJob pr.1.job _ h

theorem timersKeysNodup_run (cmds : List Cmd) (st : World)
    (h : timersKeysNodup st) : timersKeysNodup (run cmds st) := by
  induction cmds generalizing st with
  | nil => exact h
  | cons c cs ih => exact ih _ (timersKeysNodup_stepCmd c st h)

/-! ### Exact characterisation of one bounds step, and of one fire -/

/-- A bounds step that is not yet done (lines 151–153): rounded write,
reschedule 8 ms later, record the new timer in the map. -/
theorem boundsStepRun_schedule (s : BoundsSession) (st : World) (wd : Window)
    (hl : st.windows.lookup s.win = some wd) (hdm : wd.destroyed = false)
    (hp : progressOf (elapsedAt st.now s.startTime) s.duration < 1) :
    boundsStepRun s st =
      { st with
        windows := updateW st.windows s.win
          (fun w => { w with
            bounds := writtenBounds s (elapsedAt st.now s.startTime) }),
        events := st.events ++
          [Event.setBoundsEv s.sid s.win
            (writtenBounds s (elapsedAt st.now s.startTime))],
        queue := st.queue ++ [⟨st.nextTid, st.now + 8, Job.boundsStep s⟩],
        nextTid := st.nextTid + 1,
        timers := timersSet st.timers s.win st.nextTid } := by
  have hv := winDestroyedB_false _ _ _ hl hdm
  rw [boundsStepRun, isWindowValid_valid st s.win hv]
  simp only [if_pos hp, doSetBounds]

/-- A bounds step at `progress ≥ 1` whose window still has company in the
timer table after deletion: rounded write, exact-target write, entry
deleted, flag untouched, completion emitted. -/
theorem boundsStepRun_complete_nonempty (s : BoundsSession) (st : World)
    (wd : Window)
    (hl : st.windows.lookup s.win = some wd) (hdm : wd.destroyed = false)
    (hp : ¬ progressOf (elapsedAt st.now s.startTime) s.duration < 1)
    (hE : (timersDelete st.timers s.win).isEmpty = false) :
    boundsStepRun s st =
      emitComplete s.sid s.onComplete
        { st with
          windows := updateW st.windows s.win
            (fun w => { w with bounds := s.target }),
          events := st.events ++
            [Event.setBoundsEv s.sid s.win
              (writtenBounds s (elapsedAt st.now s.startTime)),
             Event.setBoundsEv s.sid s.win s.target],
          timers := timersDelete st.timers s.win } := by
  have hv := winDestroyedB_false _ _ _ hl hdm
  rw [boundsStepRun, isWindowValid_valid st s.win hv]
  simp only [if_neg hp, doSetBounds, hE, Bool.false_eq_true, if_false,
    updateW_updateW, List.append_assoc]
  rfl

/-- A bounds step at `progress ≥ 1` that empties the timer table: as above
but the engine-wide flag is also reset. -/
theorem boundsStepRun_complete_empty (s : BoundsSession) (st : World)
    (wd : Window)
    (hl : st.windows.lookup s.win = some wd) (hdm : wd.destroyed = false)
    (hp : ¬ progressOf (elapsedAt st.now s.startTime) s.duration < 1)
    (hE : (timersDelete st.timers s.win).isEmpty = true) :
    boundsStepRun s st =
      emitComplete s.sid s.onComplete
        { st with
          windows := updateW st.windows s.win
            (fun w => { w with bounds := s.target }),
          events := st.events ++
            [Event.setBoundsEv s.sid s.win
              (writtenBounds s (elapsedAt st.now s.startTime)),
             Event.setBoundsEv s.sid s.win s.target],
          timers := timersDelete st.timers s.win,
          isAnimating := false } := by
  have hv := winDestroyedB_false _ _ _ hl hdm
  rw [boundsStepRun, isWindowValid_valid st s.win hv]
  simp only [if_neg hp, doSetBounds, hE, if_true, updateW_updateW,
    List.append_assoc]
  rfl

/-- Firing a world whose queue is the single entry `e`. -/
theorem fireNext_singleton (st : World) (e : TimerEntry)
    (h : st.queue = [e]) :
    fireNext st =
      runJob e.job
        { st with
          now := max st.now e.fireAt
          queue := [] } := by
  rw [fireNext, h]
  rfl

theorem run_replicate_succ (n : ℕ) (st : World) :
    run (List.replicate (n + 1) Cmd.fire) st =
      run (List.replicate n Cmd.fire) (fireNext st) := by
  rfl

/-- The three kinds of event a single bounds chain can emit: a rounded
interpolated write, the exact-target write, or its own completion. -/
def chainEv (s : BoundsSession) (ev : Event) : Prop :=
  (∃ q : ℚ, ev = Event.setBoundsEv s.sid s.win (writtenBounds s q)) ∨
  ev = Event.setBoundsEv s.sid s.win s.target ∨
  (∃ c, s.onComplete = some c ∧ ev = Event.completeEv s.sid c)

/-- Running the event loop on a world whose only pending work is one bounds
chain drives that chain to completion: the window ends at the session's
exact resolved target, the queue drains, the window's timer-map entry is
removed (recomputing the flag as the completion branch does), and every
emitted event belongs to that chain. -/
theorem boundsChain (fuel : ℕ) :
    ∀ (st : World) (s : BoundsSession) (tid : ℕ) (wd : Window),
    st.queue = [⟨tid, st.now + 8, Job.boundsStep s⟩] →
    st.windows.lookup s.win = some wd →
    wd.destroyed = false →
    st.timers.lookup s.win = some tid →
    0 < s.duration →
    s.duration ≤ elapsedAt st.now s.startTime + 8 * (fuel : ℚ) →
    1 ≤ fuel →
    ∃ (n2 t2 : ℕ) (evs : List Event),
      run (List.replicate fuel Cmd.fire) st =
        { now := n2
          windows := updateW st.windows s.win
            (fun w => { w with bounds := s.target })
          queue := []
          nextTid := t2
          timers := timersDelete st.timers s.win
          isAnimating :=
            if (timersDelete st.timers s.win).isEmpty then false
            else st.isAnimating
          events := st.events ++ evs
          nextSid := st.nextSid } ∧
      ∀ ev ∈ evs, chainEv s ev := by
  induction fuel with
  | zero =>
    intro st s tid wd _ _ _ _ _ _ hpos
    exact absurd hpos (by norm_num)
  | succ n ih =>
    intro st s tid wd hq hl hdm htl hd hfuel _
    have hmax : max st.now (st.now + 8) = st.now + 8 :=
      Nat.max_eq_right (Nat.le_add_right _ _)
    have hstep : run (List.replicate (n + 1) Cmd.fire) st =
        run (List.replicate n Cmd.fire)
          (boundsStepRun s { st with now := st.now + 8, queue := [] }) := by
      rw [run_replicate_succ, fireNext_singleton st _ hq, hmax]
      rfl
    set stf : World := { st with now := st.now + 8, queue := [] } with hstf
    have hlf : stf.windows.lookup s.win = some wd := hl
    have hel : elapsedAt stf.now s.startTime =
        elapsedAt st.now s.startTime + 8 := by
      simp only [hstf, elapsedAt]
      push_cast
      ring
    by_cases hpl : progressOf (elapsedAt stf.now s.startTime) s.duration < 1
    · -- not done yet: one rounded write, rescheduled; recurse
      have hlt : elapsedAt stf.now s.startTime < s.duration :=
        (progressOf_lt_one_iff hd).1 hpl
      have hn1 : 1 ≤ n := by
        by_contra hc
        have hn0 : n = 0 := by omega
        rw [hn0] at hfuel
        rw [hel] at hlt
        push_cast at hfuel
        linarith
      have hsch := boundsStepRun_schedule s stf wd hlf hdm hpl
      set st2 : World :=
        { stf with
          windows := updateW stf.windows s.win
            (fun w => { w with
              bounds := writtenBounds s (elapsedAt stf.now s.startTime) })
          events := stf.events ++
            [Event.setBoundsEv s.sid s.win
              (writtenBounds s (elapsedAt stf.now s.startTime))]
          queue := stf.queue ++ [⟨stf.nextTid, stf.now + 8, Job.boundsStep s⟩]
          nextTid := stf.nextTid + 1
          timers := timersSet stf.timers s.win stf.nextTid } with hst2
      obtain ⟨n2, t2, evs, hrun, hevs⟩ :=
        ih st2 s stf.nextTid
          { wd with
            bounds := writtenBounds s (elapsedAt stf.now s.startTime) }
          (by simp [hst2, hstf])
          (by
            simp only [hst2]
            rw [lookup_updateW_self, hlf]
            rfl)
          hdm
          (by
            simp only [hst2]
            exact lookup_timersSet_self _ _ _)
          hd
          (by
            have h8 : elapsedAt st2.now s.startTime =
                elapsedAt st.now s.startTime + 8 := by
              simp only [hst2]
              exact hel
            rw [h8]
            push_cast at hfuel ⊢
            linarith)
          hn1
      refine ⟨n2, t2,
        Event.setBoundsEv s.sid s.win
          (writtenBounds s (elapsedAt stf.now s.startTime)) :: evs, ?_, ?_⟩
      · rw [hstep, hsch, hrun]
        simp only [hst2, hstf]
        rw [updateW_updateW, timersDelete_timersSet, List.append_assoc]
        rfl
      · intro ev hmem
        rcases List.mem_cons.1 hmem with h | h
        · exact Or.inl ⟨elapsedAt stf.now s.startTime, h⟩
        · exact hevs ev h
    · -- this fire completes the chain
      have hquiet : ∀ (stq : World), stq.queue = [] →
          run (List.replicate n Cmd.fire) stq = stq :=
        fun stq hh => run_fire_quiet n stq hh
      cases hE : (timersDelete stf.timers s.win).isEmpty with
      | false =>
        have hcomp := boundsStepRun_complete_nonempty s stf wd hlf hdm hpl hE
        rw [hstep, hcomp]
        cases hoc : s.onComplete with
        | none =>
          refine ⟨st.now + 8, st.nextTid,
            [Event.setBoundsEv s.sid s.win
              (writtenBounds s (elapsedAt stf.now s.startTime)),
             Event.setBoundsEv s.sid s.win s.target], ?_, ?_⟩
          · rw [hquiet _ (by simp [emitComplete, hstf])]
            simp only [emitComplete, hstf, hE]
            rfl
          · intro ev hmem
            rcases List.mem_cons.1 hmem with h | h
            · exact Or.inl ⟨elapsedAt stf.now s.startTime, h⟩
            · rcases List.mem_cons.1 h with h2 | h2
              · exact Or.inr (Or.inl h2)
              · exact absurd h2 (List.not_mem_nil ev)
        | some c =>
          refine ⟨st.now + 8, st.nextTid,
            [Event.setBoundsEv s.sid s.win
              (writtenBounds s (elapsedAt stf.now s.startTime)),
             Event.setBoundsEv s.sid s.win s.target,
             Event.completeEv s.sid c], ?_, ?_⟩
          · rw [hquiet _ (by simp [emitComplete, hstf])]
            simp only [emitComplete, hstf, hE]
            rw [List.append_assoc]
            rfl
          · intro ev hmem
            rcases List.mem_cons.1 hmem with h | h
            · exact Or.inl ⟨elapsedAt stf.now s.startTime, h⟩
            · rcases List.mem_cons.1 h with h2 | h2
              · exact Or.inr (Or.inl h2)
              · rcases List.mem_cons.1 h2 with h3 | h3
                · exact Or.inr (Or.inr ⟨c, hoc, h3⟩)
                · exact absurd h3 (List.not_mem_nil ev)
      | true =>
        have hcomp := boundsStepRun_complete_empty s stf wd hlf hdm hpl hE
        rw [hstep, hcomp]
        cases hoc : s.onComplete with
        | none =>
          refine ⟨st.now + 8, st.nextTid,
            [Event.setBoundsEv s.sid s.win
              (writtenBounds s (elapsedAt stf.now s.startTime)),
             Event.setBoundsEv s.sid s.win s.target], ?_, ?_⟩
          · rw [hquiet _ (by simp [emitComplete, hstf])]
            simp only [emitComplete, hstf, hE]
            rfl
          · intro ev hmem
            rcases List.mem_cons.1 hmem with h | h
            · exact Or.inl ⟨elapsedAt stf.now s.startTime, h⟩
            · rcases List.mem_cons.1 h with h2 | h2
              · exact Or.inr (Or.inl h2)
              · exact absurd h2 (List.not_mem_nil ev)
        | some c =>
          refine ⟨st.now + 8, st.nextTid,
            [Event.setBoundsEv s.sid s.win
              (writtenBounds s (elapsedAt stf.now s.startTime)),
             Event.setBoundsEv s.sid s.win s.target,
             Event.completeEv s.sid c], ?_, ?_⟩
          · rw [hquiet _ (by simp [emitComplete, hstf])]
            simp only [emitComplete, hstf, hE]
            rw [List.append_assoc]
            rfl
          · intro ev hmem
            rcases List.mem_cons.1 hmem with h | h
            · exact Or.inl ⟨elapsedAt stf.now s.startTime, h⟩
            · rcases List.mem_cons.1 h with h2 | h2
              · exact Or.inr (Or.inl h2)
              · rcases List.mem_cons.1 h2 with h3 | h3
                · exact Or.inr (Or.inr ⟨c, hoc, h3⟩)
                · exact absurd h3 (List.not_mem_nil ev)

theorem progressOf_zero (d : ℚ) : progressOf 0 d = 0 := by
  simp [progressOf]

theorem elapsedAt_self (n : ℕ) : elapsedAt n n = 0 := by
  simp [elapsedAt]

/-! ### Session ids of events, jobs, and the at-most-once machinery -/

/-- The call id that produced an event. -/
def evSid : Event → ℕ
  | Event.setBoundsEv sid _ _ => sid
  | Event.setOpacityEv sid _ _ => sid
  | Event.completeEv sid _ => sid

/-- The call id owning a scheduled step. -/
def jobSid : Job → ℕ
  | Job.boundsStep s => s.sid
  | Job.winStep s => s.sid
  | Job.fadeStep s => s.sid

/-- Is this event an `onComplete` invocation of the given call? -/
def isComplOf (sid : ℕ) : Event → Bool
  | Event.completeEv s _ => s == sid
  | _ => false

/-- How many `onComplete` invocations call `sid` has performed. -/
def complCount (evs : List Event) (sid : ℕ) : ℕ := evs.countP (isComplOf sid)

/-- How many scheduled steps belong to call `sid`. -/
def queueCount (q : List TimerEntry) (sid : ℕ) : ℕ :=
  q.countP (fun e => jobSid e.job == sid)

/-- Completions performed so far plus steps still able to complete. -/
def sidLive (st : World) (sid : ℕ) : ℕ :=
  complCount st.events sid + queueCount st.queue sid

/-- The exactly-once invariant: no call ever accounts for more than one
completion-or-pending-step, and ids not yet allocated account for none. -/
def OnceInv (st : World) : Prop :=
  ∀ sid, sidLive st sid ≤ 1 ∧ (st.nextSid ≤ sid → sidLive st sid = 0)

theorem isWindowValid_events (st : World) (oi : Option ℕ) :
    (isWindowValid st oi).2.events = st.events := by
  cases oi with
  | none => rfl
  | some i =>
    rw [isWindowValid]
    split
    · cases htl : st.timers.lookup i <;> simp [htl]
    · rfl

theorem isWindowValid_nextSid (st : World) (oi : Option ℕ) :
    (isWindowValid st oi).2.nextSid = st.nextSid := by
  cases oi with
  | none => rfl
  | some i =>
    rw [isWindowValid]
    split
    · cases htl : st.timers.lookup i <;> simp [htl]
    · rfl

theorem isWindowValid_queue_sublist (st : World) (oi : Option ℕ) :
    (isWindowValid st oi).2.queue.Sublist st.queue := by
  cases oi with
  | none => exact List.Sublist.refl _
  | some i =>
    rw [isWindowValid]
    split
    · cases htl : st.timers.lookup i with
      | none => simp [htl]
      | some t =>
        simp only [htl]
        exact List.filter_sublist _
    · exact List.Sublist.refl _

theorem emitComplete_nextSid (sid : ℕ) (cb : Option ℕ) (st : World) :
    (emitComplete sid cb st).nextSid = st.nextSid := by
  cases cb <;> simp [emitComplete]

theorem complCount_append_single (evs : List Event) (ev : Event)
    (sid : ℕ) :
    complCount (evs ++ [ev]) sid =
      complCount evs sid + (if isComplOf sid ev then 1 else 0) := by
  rw [complCount, List.countP_append, complCount]
  congr 1
  rw [List.countP_cons, List.countP_nil]
  simp

theorem complCount_emitComplete (sid : ℕ) (cb : Option ℕ) (st : World)
    (sid2 : ℕ) :
    complCount (emitComplete sid cb st).events sid2 ≤
      complCount st.events sid2 + (if sid = sid2 then 1 else 0) := by
  cases cb with
  | none =>
    simp only [emitComplete]
    omega
  | some c =>
    simp only [emitComplete, complCount_append_single]
    by_cases h : sid = sid2
    · simp [isComplOf, h]
    · simp [isComplOf, beq_false_of_ne h, h]

theorem complCount_doSetBounds (sid i : ℕ) (r : Rect) (st : World)
    (sid2 : ℕ) :
    complCount (doSetBounds sid i r st).events sid2 =
      complCount st.events sid2 := by
  have : (doSetBounds sid i r st).events =
      st.events ++ [Event.setBoundsEv sid i r] := rfl
  rw [this, complCount_append_single]
  simp [isComplOf]

theorem complCount_doSetOpacity (sid i : ℕ) (v : ℚ) (st : World)
    (sid2 : ℕ) :
    complCount (doSetOpacity sid i v st).events sid2 =
      complCount st.events sid2 := by
  have : (doSetOpacity sid i v st).events =
      st.events ++ [Event.setOpacityEv sid i v] := rfl
  rw [this, complCount_append_single]
  simp [isComplOf]

theorem queueCount_append_single (q : List TimerEntry) (e : TimerEntry)
    (sid : ℕ) :
    queueCount (q ++ [e]) sid =
      queueCount q sid + (if jobSid e.job = sid then 1 else 0) := by
  rw [queueCount, List.countP_append, queueCount]
  congr 1
  rw [List.countP_cons, List.countP_nil]
  by_cases h : jobSid e.job = sid
  · simp [h]
  · simp [h, beq_false_of_ne h]

theorem queueCount_sublist {q1 q2 : List TimerEntry} (h : q1.Sublist q2)
    (sid : ℕ) : queueCount q1 sid ≤ queueCount q2 sid :=
  h.countP_le _

theorem sidLive_isWindowValid (st : World) (oi : Option ℕ) (sid : ℕ) :
    sidLive (isWindowValid st oi).2 sid ≤ sidLive st sid := by
  rw [sidLive, sidLive, isWindowValid_events]
  exact Nat.add_le_add_left
    (queueCount_sublist (isWindowValid_queue_sublist st oi) sid) _

theorem sidLive_emitComplete_le (sid : ℕ) (cb : Option ℕ) (st : World)
    (sid2 : ℕ) :
    sidLive (emitComplete sid cb st) sid2 ≤
      sidLive st sid2 + (if sid = sid2 then 1 else 0) := by
  have hc := complCount_emitComplete sid cb st sid2
  rw [sidLive, sidLive, emitComplete_queue]
  omega

theorem doSetBounds_queue (sid i : ℕ) (r : Rect) (st : World) :
    (doSetBounds sid i r st).queue = st.queue := rfl

theorem doSetOpacity_queue (sid i : ℕ) (v : ℚ) (st : World) :
    (doSetOpacity sid i v st).queue = st.queue := rfl

theorem doSetBounds_events (sid i : ℕ) (r : Rect) (st : World) :
    (doSetBounds sid i r st).events =
      st.events ++ [Event.setBoundsEv sid i r] := rfl

theorem doSetOpacity_events (sid i : ℕ) (v : ℚ) (st : World) :
    (doSetOpacity sid i v st).events =
      st.events ++ [Event.setOpacityEv sid i v] := rfl

theorem isWindowValid_true_eq (st : World) (i : ℕ) {st1 : World}
    (h : isWindowValid st (some i) = (true, st1)) :
    st1 = st ∧ winDestroyedB st.windows i = false := by
  rw [isWindowValid] at h
  by_cases hdb : winDestroyedB st.windows i
  · rw [if_pos hdb] at h
    cases htl : st.timers.lookup i <;> rw [htl] at h <;>
      exact absurd (congrArg Prod.fst h) (by simp)
  · rw [if_neg hdb] at h
    have h2 := congrArg Prod.snd h
    exact ⟨h2.symm, by simpa using hdb⟩

theorem winDestroyedB_false_elim {ws : List (ℕ × Window)} {i : ℕ}
    (h : winDestroyedB ws i = false) :
    ∃ wd, ws.lookup i = some wd ∧ wd.destroyed = false := by
  rw [winDestroyedB] at h
  cases hl : ws.lookup i with
  | none => rw [hl] at h; exact absurd h (by simp)
  | some wd => rw [hl] at h; exact ⟨wd, rfl, h⟩

theorem sidLive_boundsStepRun (s : BoundsSession) (st : World) (sid : ℕ) :
    sidLive (boundsStepRun s st) sid ≤
      sidLive st sid + (if s.sid = sid then 1 else 0) := by
  rcases hvv : isWindowValid st (some s.win) with ⟨ok, st1⟩
  have hval : sidLive st1 sid ≤ sidLive st sid := by
    have h2 := sidLive_isWindowValid st (some s.win) sid
    rw [hvv] at h2
    exact h2
  rw [boundsStepRun, hvv]
  cases ok
  · exact le_trans (sidLive_emitComplete_le _ _ _ _) (by omega)
  · obtain ⟨h1, hv2⟩ := isWindowValid_true_eq st s.win hvv
    subst h1
    dsimp only
    split
    · simp only [sidLive, doSetBounds_queue, doSetBounds_events,
        complCount_append_single, queueCount_append_single, jobSid,
        isComplOf, Bool.false_eq_true, if_false] at hval ⊢
      split_ifs <;> omega
    · split <;>
      · refine le_trans (sidLive_emitComplete_le _ _ _ _) ?_
        simp only [sidLive]
        rw [doSetBounds_events, doSetBounds_events, complCount_append_single,
          complCount_append_single, doSetBounds_queue, doSetBounds_queue]
        simp only [isComplOf, Bool.false_eq_true, if_false, Nat.add_zero]
        omega

theorem sidLive_winStepRun (s : WinSession) (st : World) (sid : ℕ) :
    sidLive (winStepRun s st) sid ≤
      sidLive st sid + (if s.sid = sid then 1 else 0) := by
  rcases hvv : isWindowValid st (some s.win) with ⟨ok, st1⟩
  have hval : sidLive st1 sid ≤ sidLive st sid := by
    have h2 := sidLive_isWindowValid st (some s.win) sid
    rw [hvv] at h2
    exact h2
  rw [winStepRun, hvv]
  cases ok
  · exact le_trans (sidLive_emitComplete_le _ _ _ _) (by omega)
  · obtain ⟨h1, hv2⟩ := isWindowValid_true_eq st s.win hvv
    subst h1
    dsimp only
    split
    · simp only [sidLive, doSetBounds_queue, doSetBounds_events,
        complCount_append_single, queueCount_append_single, jobSid,
        isComplOf, Bool.false_eq_true, if_false] at hval ⊢
      split_ifs <;> omega
    · refine le_trans (sidLive_emitComplete_le _ _ _ _) ?_
      simp only [sidLive]
      rw [doSetBounds_events, complCount_append_single, doSetBounds_queue]
      simp only [isComplOf, Bool.false_eq_true, if_false, Nat.add_zero]
      omega

theorem sidLive_fadeStepRun (s : FadeSession) (st : World) (sid : ℕ) :
    sidLive (fadeStepRun s st) sid ≤
      sidLive st sid + (if s.sid = sid then 1 else 0) := by
  rcases hvv : isWindowValid st (some s.win) with ⟨ok, st1⟩
  have hval : sidLive st1 sid ≤ sidLive st sid := by
    have h2 := sidLive_isWindowValid st (some s.win) sid
    rw [hvv] at h2
    exact h2
  rw [fadeStepRun, hvv]
  cases ok
  · exact le_trans (sidLive_emitComplete_le _ _ _ _) (by omega)
  · obtain ⟨h1, hv2⟩ := isWindowValid_true_eq st s.win hvv
    subst h1
    dsimp only
    split
    · simp only [sidLive, doSetOpacity_queue, doSetOpacity_events,
        complCount_append_single, queueCount_append_single, jobSid,
        isComplOf, Bool.false_eq_true, if_false] at hval ⊢
      split_ifs <;> omega
    · refine le_trans (sidLive_emitComplete_le _ _ _ _) ?_
      simp only [sidLive]
      rw [doSetOpacity_events, doSetOpacity_events, complCount_append_single,
        complCount_append_single, doSetOpacity_queue, doSetOpacity_queue]
      simp only [isComplOf, Bool.false_eq_true, if_false, Nat.add_zero]
      omega

theorem sidLive_runJob (j : Job) (st : World) (sid : ℕ) :
    sidLive (runJob j st) sid ≤
      sidLive st sid + (if jobSid j = sid then 1 else 0) := by
  cases j with
  | boundsStep s => exact sidLive_boundsStepRun s st sid
  | winStep s => exact sidLive_winStepRun s st sid
  | fadeStep s => exact sidLive_fadeStepRun s st sid

theorem nextSid_boundsStepRun (s : BoundsSession) (st : World) :
    (boundsStepRun s st).nextSid = st.nextSid := by
  rcases hvv : isWindowValid st (some s.win) with ⟨ok, st1⟩
  have h1 : st1.nextSid = st.nextSid := by
    have h2 := isWindowValid_nextSid st (some s.win)
    rw [hvv] at h2
    exact h2
  rw [boundsStepRun, hvv]
  cases ok
  · rw [emitComplete_nextSid]
    exact h1
  · dsimp only
    split
    · exact h1
    · split <;> (rw [emitComplete_nextSid]; exact h1)

theorem nextSid_winStepRun (s : WinSession) (st : World) :
    (winStepRun s st).nextSid = st.nextSid := by
  rcases hvv : isWindowValid st (some s.win) with ⟨ok, st1⟩
  have h1 : st1.nextSid = st.nextSid := by
    have h2 := isWindowValid_nextSid st (some s.win)
    rw [hvv] at h2
    exact h2
  rw [winStepRun, hvv]
  cases ok
  · rw [emitComplete_nextSid]
    exact h1
  · dsimp only
    split
    · exact h1
    · rw [emitComplete_nextSid]
      exact h1

theorem nextSid_fadeStepRun (s : FadeSession) (st : World) :
    (fadeStepRun s st).nextSid = st.nextSid := by
  rcases hvv : isWindowValid st (some s.win) with ⟨ok, st1⟩
  have h1 : st1.nextSid = st.nextSid := by
    have h2 := isWindowValid_nextSid st (some s.win)
    rw [hvv] at h2
    exact h2
  rw [fadeStepRun, hvv]
  cases ok
  · rw [emitComplete_nextSid]
    exact h1
  · dsimp only
    split
    · exact h1
    · rw [emitComplete_nextSid]
      exact h1

theorem nextSid_runJob (j : Job) (st : World) :
    (runJob j st).nextSid = st.nextSid := by
  cases j with
  | boundsStep s => exact nextSid_boundsStepRun s st
  | winStep s => exact nextSid_winStepRun s st
  | fadeStep s => exact nextSid_fadeStepRun s st

theorem pickEarliest_eq_none {q : List TimerEntry}
    (h : pickEarliest q = none) : q = [] := by
  cases q with
  | nil => rfl
  | cons a l =>
    rw [pickEarliest] at h
    cases hq : pickEarliest l <;> rw [hq] at h
    · cases h
    · rename_i pr
      rcases pr with ⟨e2, rest2⟩
      dsimp only at h
      by_cases hlt : e2.fireAt < a.fireAt
      · rw [if_pos hlt] at h
        cases h
      · rw [if_neg hlt] at h
        cases h

theorem pickEarliest_perm :
    ∀ (q : List TimerEntry) (e : TimerEntry) (rest : List TimerEntry),
    pickEarliest q = some (e, rest) → q.Perm (e :: rest) := by
  intro q
  induction q with
  | nil =>
    intro e rest h
    cases h
  | cons a l ih =>
    intro e rest h
    rw [pickEarliest] at h
    cases hq : pickEarliest l <;> rw [hq] at h
    · dsimp only at h
      cases h
      rw [pickEarliest_eq_none hq]
    · rename_i pr
      rcases pr with ⟨e2, rest2⟩
      dsimp only at h
      by_cases hlt : e2.fireAt < a.fireAt
      · rw [if_pos hlt] at h
        cases h
        exact (List.Perm.cons a (ih _ _ hq)).trans
          (List.Perm.swap _ a _)
      · rw [if_neg hlt] at h
        cases h
        exact List.Perm.refl _

theorem OnceInv_isWindowValid (st : World) (oi : Option ℕ)
    (h : OnceInv st) : OnceInv (isWindowValid st oi).2 := by
  intro sid
  have h1 := sidLive_isWindowValid st oi sid
  have h2 := isWindowValid_nextSid st oi
  have h3 := h sid
  refine ⟨le_trans h1 h3.1, fun hs => ?_⟩
  rw [h2] at hs
  have h4 := h3.2 hs
  omega

theorem OnceInv_allocSid (st : World) (h : OnceInv st) :
    OnceInv (allocSid st) := by
  intro sid
  have h3 := h sid
  exact ⟨h3.1, fun hs => h3.2 (le_trans (Nat.le_succ _) hs)⟩

theorem clearPending_queue_sublist (oi : Option ℕ) (st : World) :
    (clearPending oi st).queue.Sublist st.queue := by
  rw [clearPending.eq_def]
  cases oi with
  | none => exact List.Sublist.refl _
  | some i =>
    cases htl : st.timers.lookup i with
    | none => simp [htl]
    | some t =>
      simp only [htl]
      exact List.filter_sublist _

theorem clearPending_events (oi : Option ℕ) (st : World) :
    (clearPending oi st).events = st.events := by
  rw [clearPending.eq_def]
  cases oi with
  | none => rfl
  | some i => cases htl : st.timers.lookup i <;> simp [htl]

theorem clearPending_nextSid (oi : Option ℕ) (st : World) :
    (clearPending oi st).nextSid = st.nextSid := by
  rw [clearPending.eq_def]
  cases oi with
  | none => rfl
  | some i => cases htl : st.timers.lookup i <;> simp [htl]

theorem OnceInv_clearPending (oi : Option ℕ) (st : World)
    (h : OnceInv st) : OnceInv (clearPending oi st) := by
  intro sid
  have h1 : sidLive (clearPending oi st) sid ≤ sidLive st sid := by
    rw [sidLive, sidLive, clearPending_events]
    exact Nat.add_le_add_left
      (queueCount_sublist (clearPending_queue_sublist oi st) sid) _
  have h3 := h sid
  refine ⟨le_trans h1 h3.1, fun hs => ?_⟩
  rw [clearPending_nextSid] at hs
  have h4 := h3.2 hs
  omega

theorem sidLive_clearPending_le (oi : Option ℕ) (st : World) (sid : ℕ) :
    sidLive (clearPending oi st) sid ≤ sidLive st sid := by
  rw [sidLive, sidLive, clearPending_events]
  exact Nat.add_le_add_left
    (queueCount_sublist (clearPending_queue_sublist oi st) sid) _

theorem OnceInv_of_delta (stA stB : World) (sid0 : ℕ)
    (hd : ∀ sid, sidLive stB sid ≤ sidLive stA sid + (if sid0 = sid then 1 else 0))
    (hn : stB.nextSid = stA.nextSid)
    (hfresh : sidLive stA sid0 = 0)
    (hlt : sid0 < stA.nextSid)
    (hA : OnceInv stA) : OnceInv stB := by
  intro sid
  obtain ⟨h1a, h1b⟩ := hA sid
  have h2 := hd sid
  by_cases hc : sid0 = sid
  · subst hc
    rw [if_pos rfl] at h2
    refine ⟨by omega, fun hs => ?_⟩
    rw [hn] at hs
    omega
  · rw [if_neg hc] at h2
    refine ⟨by omega, fun hs => ?_⟩
    rw [hn] at hs
    have h3 := h1b hs
    omega

theorem OnceInv_animateWindowBounds (oi : Option ℕ) (target : PRect)
    (dur : Option ℚ) (cb : Option ℕ) (st : World) (h : OnceInv st) :
    OnceInv (animateWindowBounds oi target dur cb st) := by
  have h0 : OnceInv (clearPending oi (allocSid st)) :=
    OnceInv_clearPending _ _ (OnceInv_allocSid _ h)
  have h4 := (h st.nextSid).2 (le_refl _)
  simp only [animateWindowBounds]
  split
  next st2 heq =>
    have h1 := OnceInv_isWindowValid (clearPending oi (allocSid st)) oi h0
    rw [heq] at h1
    have h2 := isWindowValid_nextSid (clearPending oi (allocSid st)) oi
    rw [heq] at h2
    have h3 := sidLive_isWindowValid (clearPending oi (allocSid st)) oi st.nextSid
    rw [heq] at h3
    have h5 : sidLive st2 st.nextSid ≤ sidLive st st.nextSid :=
      le_trans h3 (sidLive_clearPending_le oi (allocSid st) st.nextSid)
    have h6 : st2.nextSid = st.nextSid + 1 := by
      have h7 : st2.nextSid = (clearPending oi (allocSid st)).nextSid := h2
      rw [h7, clearPending_nextSid]
      rfl
    refine OnceInv_of_delta st2 _ st.nextSid
      (fun sid => sidLive_emitComplete_le st.nextSid cb st2 sid)
      (emitComplete_nextSid _ _ _) ?_ ?_ h1
    · omega
    · omega
  next st2 heq =>
    have h1 := OnceInv_isWindowValid (clearPending oi (allocSid st)) oi h0
    rw [heq] at h1
    have h2 := isWindowValid_nextSid (clearPending oi (allocSid st)) oi
    rw [heq] at h2
    have h3 := sidLive_isWindowValid (clearPending oi (allocSid st)) oi st.nextSid
    rw [heq] at h3
    have h5 : sidLive st2 st.nextSid ≤ sidLive st st.nextSid :=
      le_trans h3 (sidLive_clearPending_le oi (allocSid st) st.nextSid)
    have h6 : st2.nextSid = st.nextSid + 1 := by
      have h7 : st2.nextSid = (clearPending oi (allocSid st)).nextSid := h2
      rw [h7, clearPending_nextSid]
      rfl
    cases oi with
    | none => exact h1
    | some i =>
      refine OnceInv_of_delta _ _ _
        (fun sid => sidLive_boundsStepRun _ _ sid)
        (nextSid_boundsStepRun _ _) ?_ ?_ ?_
      · show sidLive st2 st.nextSid = 0
        omega
      · show st.nextSid < st2.nextSid
        omega
      · exact h1

theorem OnceInv_animateWindow (oi : Option ℕ) (tx ty : ℚ)
    (size : Option (ℚ × ℚ)) (dur : Option ℚ) (cb : Option ℕ) (st : World)
    (h : OnceInv st) : OnceInv (animateWindow oi tx ty size dur cb st) := by
  have h0 : OnceInv (allocSid st) := OnceInv_allocSid _ h
  have h4 := (h st.nextSid).2 (le_refl _)
  simp only [animateWindow]
  split
  next st1 heq =>
    have h1 := OnceInv_isWindowValid (allocSid st) oi h0
    rw [heq] at h1
    have h2 := isWindowValid_nextSid (allocSid st) oi
    rw [heq] at h2
    have h3 := sidLive_isWindowValid (allocSid st) oi st.nextSid
    rw [heq] at h3
    have h5 : sidLive st1 st.nextSid ≤ sidLive st st.nextSid := h3
    have h6 : st1.nextSid = st.nextSid + 1 := h2
    refine OnceInv_of_delta st1 _ st.nextSid
      (fun sid => sidLive_emitComplete_le st.nextSid cb st1 sid)
      (emitComplete_nextSid _ _ _) ?_ ?_ h1
    · omega
    · omega
  next st1 heq =>
    have h1 := OnceInv_isWindowValid (allocSid st) oi h0
    rw [heq] at h1
    have h2 := isWindowValid_nextSid (allocSid st) oi
    rw [heq] at h2
    have h3 := sidLive_isWindowValid (allocSid st) oi st.nextSid
    rw [heq] at h3
    have h5 : sidLive st1 st.nextSid ≤ sidLive st st.nextSid := h3
    have h6 : st1.nextSid = st.nextSid + 1 := h2
    cases oi with
    | none => exact h1
    | some i =>
      refine OnceInv_of_delta _ _ _
        (fun sid => sidLive_winStepRun _ _ sid)
        (nextSid_winStepRun _ _) ?_ ?_ ?_
      · show sidLive st1 st.nextSid = 0
        omega
      · show st.nextSid < st1.nextSid
        omega
      · exact h1

theorem OnceInv_fade (oi : Option ℕ) (fr : Option ℚ) (toOpacity : ℚ)
    (dur : Option ℚ) (cb : Option ℕ) (st : World) (h : OnceInv st) :
    OnceInv (fade oi fr toOpacity dur cb st) := by
  have h0 : OnceInv (allocSid st) := OnceInv_allocSid _ h
  have h4 := (h st.nextSid).2 (le_refl _)
  simp only [fade]
  split
  next st1 heq =>
    have h1 := OnceInv_isWindowValid (allocSid st) oi h0
    rw [heq] at h1
    have h2 := isWindowValid_nextSid (allocSid st) oi
    rw [heq] at h2
    have h3 := sidLive_isWindowValid (allocSid st) oi st.nextSid
    rw [heq] at h3
    have h5 : sidLive st1 st.nextSid ≤ sidLive st st.nextSid := h3
    have h6 : st1.nextSid = st.nextSid + 1 := h2
    refine OnceInv_of_delta st1 _ st.nextSid
      (fun sid => sidLive_emitComplete_le st.nextSid cb st1 sid)
      (emitComplete_nextSid _ _ _) ?_ ?_ h1
    · omega
    · omega
  next st1 heq =>
    have h1 := OnceInv_isWindowValid (allocSid st) oi h0
    rw [heq] at h1
    have h2 := isWindowValid_nextSid (allocSid st) oi
    rw [heq] at h2
    have h3 := sidLive_isWindowValid (allocSid st) oi st.nextSid
    rw [heq] at h3
    have h5 : sidLive st1 st.nextSid ≤ sidLive st st.nextSid := h3
    have h6 : st1.nextSid = st.nextSid + 1 := h2
    cases oi with
    | none => exact h1
    | some i =>
      refine OnceInv_of_delta _ _ _
        (fun sid => sidLive_fadeStepRun _ _ sid)
        (nextSid_fadeStepRun _ _) ?_ ?_ ?_
      · show sidLive st1 st.nextSid = 0
        omega
      · show st.nextSid < st1.nextSid
        omega
      · exact h1

theorem OnceInv_animateWindowPosition (oi : Option ℕ) (px py : Option ℚ)
    (dur : Option ℚ) (cb : Option ℕ) (st : World) (h : OnceInv st) :
    OnceInv (animateWindowPosition oi px py dur cb st) := by
  have h0 : OnceInv (allocSid st) := OnceInv_allocSid _ h
  have h4 := (h st.nextSid).2 (le_refl _)
  simp only [animateWindowPosition]
  split
  next st1 heq =>
    have h1 := OnceInv_isWindowValid (allocSid st) oi h0
    rw [heq] at h1
    have h2 := isWindowValid_nextSid (allocSid st) oi
    rw [heq] at h2
    have h3 := sidLive_isWindowValid (allocSid st) oi st.nextSid
    rw [heq] at h3
    have h5 : sidLive st1 st.nextSid ≤ sidLive st st.nextSid := h3
    have h6 : st1.nextSid = st.nextSid + 1 := h2
    refine OnceInv_of_delta st1 _ st.nextSid
      (fun sid => sidLive_emitComplete_le st.nextSid cb st1 sid)
      (emitComplete_nextSid _ _ _) ?_ ?_ h1
    · omega
    · omega
  next st1 heq =>
    have h1 := OnceInv_isWindowValid (allocSid st) oi h0
    rw [heq] at h1
    cases oi with
    | none => exact h1
    | some i => exact OnceInv_animateWindowBounds _ _ _ _ _ h1

theorem sidLive_destroyMgr_le (st : World) (sid : ℕ) :
    sidLive (destroyMgr st) sid ≤ sidLive st sid := by
  simp only [sidLive, destroyMgr]
  exact Nat.add_le_add_left
    (queueCount_sublist (List.filter_sublist _) sid) _

theorem OnceInv_destroyMgr (st : World) (h : OnceInv st) :
    OnceInv (destroyMgr st) := by
  intro sid
  obtain ⟨h1a, h1b⟩ := h sid
  have h2 := sidLive_destroyMgr_le st sid
  refine ⟨by omega, fun hs => ?_⟩
  have h3 := h1b hs
  omega

theorem OnceInv_fireNext (st : World) (h : OnceInv st) :
    OnceInv (fireNext st) := by
  rw [fireNext]
  cases hq : pickEarliest st.queue with
  | none => exact h
  | some pr =>
    rcases pr with ⟨e, rest⟩
    dsimp only
    have hperm := pickEarliest_perm st.queue e rest hq
    intro sid
    obtain ⟨h1a, h1b⟩ := h sid
    have hrj := sidLive_runJob e.job
      { st with now := max st.now e.fireAt, queue := rest } sid
    have hns := nextSid_runJob e.job
      { st with now := max st.now e.fireAt, queue := rest }
    have hcnt : queueCount st.queue sid
        = queueCount rest sid + (if jobSid e.job = sid then 1 else 0) := by
      rw [queueCount, hperm.countP_eq, List.countP_cons]
      simp only [queueCount, beq_iff_eq]
    have hmid : sidLive { st with now := max st.now e.fireAt, queue := rest } sid
        = complCount st.events sid + queueCount rest sid := rfl
    have hst : sidLive st sid
        = complCount st.events sid + queueCount st.queue sid := rfl
    rw [hmid] at hrj
    rw [hst] at h1a
    refine ⟨?_, fun hs => ?_⟩
    · split_ifs at hrj hcnt with hc <;> omega
    · rw [hns] at hs
      have h2 := h1b hs
      rw [hst] at h2
      split_ifs at hrj hcnt with hc <;> omega

theorem OnceInv_stepCmd (c : Cmd) (st : World) (h : OnceInv st) :
    OnceInv (stepCmd c st) := by
  cases c with
  | animW w tx ty size d cb =>
    rw [stepCmd]
    exact OnceInv_animateWindow w tx ty size d cb st h
  | animB w t d cb =>
    rw [stepCmd]
    exact OnceInv_animateWindowBounds w t d cb st h
  | animP w px py d cb =>
    rw [stepCmd]
    exact OnceInv_animateWindowPosition w px py d cb st h
  | fadeC w fr v d cb =>
    rw [stepCmd]
    exact OnceInv_fade w fr v d cb st h
  | mgrDestroy =>
    rw [stepCmd]
    exact OnceInv_destroyMgr st h
  | winKill i => exact h
  | tick ms => exact h
  | fire =>
    rw [stepCmd]
    exact OnceInv_fireNext st h

theorem OnceInv_run (cmds : List Cmd) (st : World) (h : OnceInv st) :
    OnceInv (run cmds st) := by
  induction cmds generalizing st with
  | nil => exact h
  | cons c cs ih => exact ih _ (OnceInv_stepCmd c st h)

theorem OnceInv_initWorld (ws : List (ℕ × Window)) :
    OnceInv (initWorld ws) := by
  intro s
  constructor
  · show complCount [] s + queueCount [] s ≤ 1
    simp [complCount, queueCount]
  · intro _
    show complCount [] s + queueCount [] s = 0
    simp [complCount, queueCount]

/-! ### Silence of cancelled calls: a call with no pending step stays silent -/

/-- How many events (of any kind) call `sid` has emitted. -/
def evCount (evs : List Event) (sid : ℕ) : ℕ :=
  evs.countP (fun ev => evSid ev == sid)

/-- Commands that only drive the event loop without starting new work. -/
def passive : Cmd → Bool
  | Cmd.fire => true
  | Cmd.tick _ => true
  | _ => false

theorem evCount_append_single (evs : List Event) (ev : Event) (sid : ℕ) :
    evCount (evs ++ [ev]) sid =
      evCount evs sid + (if evSid ev = sid then 1 else 0) := by
  rw [evCount, List.countP_append, evCount]
  congr 1
  rw [List.countP_cons, List.countP_nil]
  simp

theorem evCount_emitComplete_ne (a : ℕ) (cb : Option ℕ) (st : World)
    (sid : ℕ) (hne : a ≠ sid) :
    evCount (emitComplete a cb st).events sid = evCount st.events sid := by
  cases cb with
  | none => rfl
  | some c =>
    simp only [emitComplete, evCount_append_single, evSid, if_neg hne,
      Nat.add_zero]

theorem quiet_boundsStepRun (s : BoundsSession) (st : World) (sid : ℕ)
    (hne : s.sid ≠ sid) (hq : queueCount st.queue sid = 0) :
    evCount (boundsStepRun s st).events sid = evCount st.events sid ∧
    queueCount (boundsStepRun s st).queue sid = 0 := by
  rcases hvv : isWindowValid st (some s.win) with ⟨ok, st1⟩
  have hev1 : st1.events = st.events := by
    have h2 := isWindowValid_events st (some s.win)
    rw [hvv] at h2
    exact h2
  have hq1 : queueCount st1.queue sid = 0 := by
    have h2 := isWindowValid_queue_sublist st (some s.win)
    rw [hvv] at h2
    have h3 := queueCount_sublist h2 sid
    rw [hq] at h3
    exact Nat.le_zero.1 h3
  rw [boundsStepRun, hvv]
  cases ok
  · constructor
    · rw [evCount_emitComplete_ne _ _ _ _ hne, hev1]
    · rw [emitComplete_queue]
      exact hq1
  · dsimp only
    split
    · constructor
      · simp only [doSetBounds_events, evCount_append_single, evSid,
          if_neg hne, Nat.add_zero, hev1]
      · simp only [doSetBounds_queue, queueCount_append_single, jobSid,
          if_neg hne, Nat.add_zero]
        exact hq1
    · constructor
      · split <;>
        · rw [evCount_emitComplete_ne _ _ _ _ hne]
          simp only [doSetBounds_events, evCount_append_single, evSid,
            if_neg hne, Nat.add_zero, hev1]
      · split <;>
        · rw [emitComplete_queue]
          simp only [doSetBounds_queue]
          exact hq1

theorem quiet_winStepRun (s : WinSession) (st : World) (sid : ℕ)
    (hne : s.sid ≠ sid) (hq : queueCount st.queue sid = 0) :
    evCount (winStepRun s st).events sid = evCount st.events sid ∧
    queueCount (winStepRun s st).queue sid = 0 := by
  rcases hvv : isWindowValid st (some s.win) with ⟨ok, st1⟩
  have hev1 : st1.events = st.events := by
    have h2 := isWindowValid_events st (some s.win)
    rw [hvv] at h2
    exact h2
  have hq1 : queueCount st1.queue sid = 0 := by
    have h2 := isWindowValid_queue_sublist st (some s.win)
    rw [hvv] at h2
    have h3 := queueCount_sublist h2 sid
    rw [hq] at h3
    exact Nat.le_zero.1 h3
  rw [winStepRun, hvv]
  cases ok
  · constructor
    · rw [evCount_emitComplete_ne _ _ _ _ hne, hev1]
    · rw [emitComplete_queue]
      exact hq1
  · dsimp only
    split
    · constructor
      · simp only [doSetBounds_events, evCount_append_single, evSid,
          if_neg hne, Nat.add_zero, hev1]
      · simp only [doSetBounds_queue, queueCount_append_single, jobSid,
          if_neg hne, Nat.add_zero]
        exact hq1
    · constructor
      · rw [evCount_emitComplete_ne _ _ _ _ hne]
        simp only [doSetBounds_events, evCount_append_single, evSid,
          if_neg hne, Nat.add_zero, hev1]
      · rw [emitComplete_queue]
        simp only [doSetBounds_queue]
        exact hq1

theorem quiet_fadeStepRun (s : FadeSession) (st : World) (sid : ℕ)
    (hne : s.sid ≠ sid) (hq : queueCount st.queue sid = 0) :
    evCount (fadeStepRun s st).events sid = evCount st.events sid ∧
    queueCount (fadeStepRun s st).queue sid = 0 := by
  rcases hvv : isWindowValid st (some s.win) with ⟨ok, st1⟩
  have hev1 : st1.events = st.events := by
    have h2 := isWindowValid_events st (some s.win)
    rw [hvv] at h2
    exact h2
  have hq1 : queueCount st1.queue sid = 0 := by
    have h2 := isWindowValid_queue_sublist st (some s.win)
    rw [hvv] at h2
    have h3 := queueCount_sublist h2 sid
    rw [hq] at h3
    exact Nat.le_zero.1 h3
  rw [fadeStepRun, hvv]
  cases ok
  · constructor
    · rw [evCount_emitComplete_ne _ _ _ _ hne, hev1]
    · rw [emitComplete_queue]
      exact hq1
  · dsimp only
    split
    · constructor
      · simp only [doSetOpacity_events, evCount_append_single, evSid,
          if_neg hne, Nat.add_zero, hev1]
      · simp only [doSetOpacity_queue, queueCount_append_single, jobSid,
          if_neg hne, Nat.add_zero]
        exact hq1
    · constructor
      · rw [evCount_emitComplete_ne _ _ _ _ hne]
        simp only [doSetOpacity_events, evCount_append_single, evSid,
          if_neg hne, Nat.add_zero, hev1]
      · rw [emitComplete_queue]
        simp only [doSetOpacity_queue]
        exact hq1

theorem quiet_runJob (j : Job) (st : World) (sid : ℕ)
    (hne : jobSid j ≠ sid) (hq : queueCount st.queue sid = 0) :
    evCount (runJob j st).events sid = evCount st.events sid ∧
    queueCount (runJob j st).queue sid = 0 := by
  cases j with
  | boundsStep s => exact quiet_boundsStepRun s st sid hne hq
  | winStep s => exact quiet_winStepRun s st sid hne hq
  | fadeStep s => exact quiet_fadeStepRun s st sid hne hq

theorem quiet_fireNext (st : World) (sid : ℕ)
    (hq : queueCount st.queue sid = 0) :
    evCount (fireNext st).events sid = evCount st.events sid ∧
    queueCount (fireNext st).queue sid = 0 := by
  rw [fireNext]
  cases hqe : pickEarliest st.queue with
  | none => exact ⟨rfl, hq⟩
  | some pr =>
    rcases pr with ⟨e, rest⟩
    dsimp only
    have hperm := pickEarliest_perm st.queue e rest hqe
    have hcnt : queueCount st.queue sid
        = queueCount rest sid + (if jobSid e.job = sid then 1 else 0) := by
      rw [queueCount, hperm.countP_eq, List.countP_cons]
      simp only [queueCount, beq_iff_eq]
    have hne : jobSid e.job ≠ sid := by
      intro hc
      rw [if_pos hc] at hcnt
      omega
    have hrest : queueCount rest sid = 0 := by
      rw [if_neg hne] at hcnt
      omega
    exact quiet_runJob e.job
      { st with now := max st.now e.fireAt, queue := rest } sid hne hrest

theorem quiet_run :
    ∀ (cmds : List Cmd), (∀ c ∈ cmds, passive c = true) →
    ∀ (st : World) (sid : ℕ), queueCount st.queue sid = 0 →
    evCount (run cmds st).events sid = evCount st.events sid ∧
    queueCount (run cmds st).queue sid = 0 := by
  intro cmds
  induction cmds with
  | nil =>
    intro hp st sid hq
    exact ⟨rfl, hq⟩
  | cons c cs ih =>
    intro hp st sid hq
    have hc := hp c (List.mem_cons_self c cs)
    have hcs : ∀ c2 ∈ cs, passive c2 = true :=
      fun c2 hm => hp c2 (List.mem_cons_of_mem c hm)
    rw [run]
    cases c with
    | fire =>
      rw [stepCmd]
      have h1 := quiet_fireNext st sid hq
      have h2 := ih hcs (fireNext st) sid h1.2
      exact ⟨h2.1.trans h1.1, h2.2⟩
    | tick ms =>
      rw [stepCmd]
      have h2 := ih hcs { st with now := st.now + ms } sid hq
      exact ⟨h2.1, h2.2⟩
    | animW w tx ty size d cb => simp [passive] at hc
    | animB w t d cb => simp [passive] at hc
    | animP w px py d cb => simp [passive] at hc
    | fadeC w fr v d cb => simp [passive] at hc
    | mgrDestroy => simp [passive] at hc
    | winKill i => simp [passive] at hc

/-!
## Claim theorems
-/
/-- C1: superseding a bounds animation mid-flight.  `st` is any state in
which session `A`'s chain is the sole pending work (its next step is
scheduled, its timer is the window's table entry) and the window is alive;
calling `animateWindowBounds` with a new target `B` and then letting the
event loop run leaves exactly one terminal geometry — `B`'s target resolved
against the bounds current at the call — with nothing further scheduled,
and the trace gained after the call contains *no* `setBounds` from `A`'s
step function: the superseded chain, though already scheduled, never writes
again. -/
theorem C1_supersede_last_call_wins (st : World) (sA : BoundsSession)
    (tidA : ℕ) (wd : Window) (B : PRect) (dB : Option ℚ) (cbB : Option ℕ)
    (fuel : ℕ)
    (hq : st.queue = [⟨tidA, st.now + 8, Job.boundsStep sA⟩])
    (htl : st.timers.lookup sA.win = some tidA)
    (hl : st.windows.lookup sA.win = some wd)
    (hdm : wd.destroyed = false)
    (hd : 0 < effDur dB)
    (hfuel : effDur dB ≤ 8 * (fuel : ℚ))
    (hfuel1 : 1 ≤ fuel)
    (hsid : sA.sid ≠ st.nextSid) :
    getBoundsD (run (List.replicate fuel Cmd.fire)
        (animateWindowBounds (some sA.win) B dB cbB st)).windows sA.win =
      mergeRect wd.bounds B ∧
    (run (List.replicate fuel Cmd.fire)
        (animateWindowBounds (some sA.win) B dB cbB st)).queue = [] ∧
    ∀ ev ∈ (run (List.replicate fuel Cmd.fire)
        (animateWindowBounds (some sA.win) B dB cbB st)).events.drop
          st.events.length,
      ∀ r : Rect, ev ≠ Event.setBoundsEv sA.sid sA.win r := by
  have hclear : clearPending (some sA.win) (allocSid st) =
      { st with nextSid := st.nextSid + 1, queue := [] } := by
    rw [clearPending.eq_def]
    simp [allocSid, htl, clearT, hq]
  have hcall : animateWindowBounds (some sA.win) B dB cbB st =
      boundsStepRun
        ⟨sA.win, st.nextSid, wd.bounds, mergeRect wd.bounds B, st.now,
          effDur dB, cbB⟩
        { st with
          nextSid := st.nextSid + 1
          queue := []
          isAnimating := true } := by
    simp only [animateWindowBounds, hclear]
    rw [isWindowValid_valid
      { st with
        nextSid := st.nextSid + 1
        queue := [] }
      sA.win (winDestroyedB_false _ _ wd hl hdm)]
    simp [getBoundsD, hl]
  have hp0 : progressOf (elapsedAt st.now st.now) (effDur dB) < 1 := by
    rw [elapsedAt_self, progressOf_zero]
    exact zero_lt_one
  have hfirst := boundsStepRun_schedule
    ⟨sA.win, st.nextSid, wd.bounds, mergeRect wd.bounds B, st.now,
      effDur dB, cbB⟩
    { st with
      nextSid := st.nextSid + 1
      queue := []
      isAnimating := true }
    wd hl hdm hp0
  obtain ⟨n2, t2, evs, hrun, hevs⟩ :=
    boundsChain fuel
      { st with
        nextSid := st.nextSid + 1
        queue := [⟨st.nextTid, st.now + 8, Job.boundsStep
          ⟨sA.win, st.nextSid, wd.bounds, mergeRect wd.bounds B, st.now,
            effDur dB, cbB⟩⟩]
        isAnimating := true
        windows := updateW st.windows sA.win
          (fun w => { w with
            bounds := writtenBounds
              ⟨sA.win, st.nextSid, wd.bounds, mergeRect wd.bounds B, st.now,
                effDur dB, cbB⟩ (elapsedAt st.now st.now) })
        events := st.events ++
          [Event.setBoundsEv st.nextSid sA.win
            (writtenBounds
              ⟨sA.win, st.nextSid, wd.bounds, mergeRect wd.bounds B, st.now,
                effDur dB, cbB⟩ (elapsedAt st.now st.now))]
        nextTid := st.nextTid + 1
        timers := timersSet st.timers sA.win st.nextTid }
      ⟨sA.win, st.nextSid, wd.bounds, mergeRect wd.bounds B, st.now,
        effDur dB, cbB⟩
      st.nextTid
      { wd with
        bounds := writtenBounds
          ⟨sA.win, st.nextSid, wd.bounds, mergeRect wd.bounds B, st.now,
            effDur dB, cbB⟩ (elapsedAt st.now st.now) }
      rfl
      (by
        rw [lookup_updateW_self, hl]
        rfl)
      hdm
      (lookup_timersSet_self _ _ _)
      hd
      (by
        rw [elapsedAt_self]
        simpa using hfuel)
      hfuel1
  have hfin : run (List.replicate fuel Cmd.fire)
      (animateWindowBounds (some sA.win) B dB cbB st) =
      run (List.replicate fuel Cmd.fire)
        { st with
          nextSid := st.nextSid + 1
          queue := [⟨st.nextTid, st.now + 8, Job.boundsStep
            ⟨sA.win, st.nextSid, wd.bounds, mergeRect wd.bounds B, st.now,
              effDur dB, cbB⟩⟩]
          isAnimating := true
          windows := updateW st.windows sA.win
            (fun w => { w with
              bounds := writtenBounds
                ⟨sA.win, st.nextSid, wd.bounds, mergeRect wd.bounds B,
                  st.now, effDur dB, cbB⟩ (elapsedAt st.now st.now) })
          events := st.events ++
            [Event.setBoundsEv st.nextSid sA.win
              (writtenBounds
                ⟨sA.win, st.nextSid, wd.bounds, mergeRect wd.bounds B,
                  st.now, effDur dB, cbB⟩ (elapsedAt st.now st.now))]
          nextTid := st.nextTid + 1
          timers := timersSet st.timers sA.win st.nextTid } := by
    rw [hcall, hfirst]
    rfl
  rw [hfin, hrun]
  refine ⟨?_, rfl, ?_⟩
  · rw [getBoundsD, updateW_updateW, lookup_updateW_self, hl]
    rfl
  · intro ev hmem r
    have hmem2 : ev ∈
        Event.setBoundsEv st.nextSid sA.win
          (writtenBounds
            ⟨sA.win, st.nextSid, wd.bounds, mergeRect wd.bounds B, st.now,
              effDur dB, cbB⟩ (elapsedAt st.now st.now)) :: evs := by
      have hdrop :
          ((st.events ++
            [Event.setBoundsEv st.nextSid sA.win
              (writtenBounds
                ⟨sA.win, st.nextSid, wd.bounds, mergeRect wd.bounds B,
                  st.now, effDur dB, cbB⟩ (elapsedAt st.now st.now))]) ++
            evs).drop st.events.length =
          [Event.setBoundsEv st.nextSid sA.win
            (writtenBounds
              ⟨sA.win, st.nextSid, wd.bounds, mergeRect wd.bounds B, st.now,
                effDur dB, cbB⟩ (elapsedAt st.now st.now))] ++ evs := by
        rw [List.append_assoc, List.drop_left]
      rw [hdrop] at hmem
      exact hmem
    rcases List.mem_cons.1 hmem2 with h | h
    · intro hev
      rw [h] at hev
      injection hev with h1 h2 h3
      exact hsid h1.symm
    · intro hev
      rcases hevs ev h with ⟨q, hev2⟩ | hev2 | ⟨c, _, hev2⟩
      · rw [hev2] at hev
        injection hev with h1 h2 h3
        exact hsid h1.symm
      · rw [hev2] at hev
        injection hev with h1 h2 h3
        exact hsid h1.symm
      · rw [hev2] at hev
        injection hev

/-- The mid-flight world for the C1 witness: a 40 ms bounds animation toward
x = 100 (call id 0), after one fired step. -/
def c1mid : World :=
  run [Cmd.animB (some 0) ⟨some 100, none, none, none⟩ (some 40) (some 0),
    Cmd.fire] w100

/-- C1 witness: superseding that mid-flight animation with target x = 200. -/
theorem C1_supersede_last_call_wins_witness :
    (c1mid.queue = [⟨1, c1mid.now + 8, Job.boundsStep
        ⟨0, 0, ⟨0, 0, 100, 100⟩, ⟨100, 0, 100, 100⟩, 0, 40, some 0⟩⟩] ∧
     c1mid.timers.lookup 0 = some 1 ∧
     c1mid.windows.lookup 0 = some ⟨⟨49, 0, 100, 100⟩, 1, false⟩ ∧
     (0 : ℚ) < effDur (some 16) ∧ effDur (some 16) ≤ 8 * ((3 : ℕ) : ℚ) ∧
     (0 : ℕ) ≠ c1mid.nextSid) ∧
    getBoundsD (run (List.replicate 3 Cmd.fire)
        (animateWindowBounds (some 0) ⟨some 200, none, none, none⟩ (some 16)
          (some 1) c1mid)).windows 0 = ⟨200, 0, 100, 100⟩ :=
  ⟨⟨by with_unfolding_all decide, by with_unfolding_all decide,
    by with_unfolding_all decide, by with_unfolding_all decide,
    by with_unfolding_all decide, by with_unfolding_all decide⟩,
   (C1_supersede_last_call_wins c1mid
      ⟨0, 0, ⟨0, 0, 100, 100⟩, ⟨100, 0, 100, 100⟩, 0, 40, some 0⟩ 1
      ⟨⟨49, 0, 100, 100⟩, 1, false⟩ ⟨some 200, none, none, none⟩ (some 16)
      (some 1) 3
      (by with_unfolding_all decide) (by with_unfolding_all decide)
      (by with_unfolding_all decide) rfl (by with_unfolding_all decide)
      (by with_unfolding_all decide) (by norm_num)
      (by with_unfolding_all decide)).1.trans (by with_unfolding_all decide)⟩

/-- C8: `animateWindowPosition` on a valid, quiescent window with integer
bounds.  The final geometry overrides exactly the supplied coordinates and
keeps everything else, and *every* `setBounds` the session performs — every
intermediate step included — keeps the width and height, keeps `x` when no
`x` was supplied, and keeps `y` when no `y` was supplied. -/
theorem C8_position_preserves_unspecified_fields (st : World) (i : ℕ)
    (wd : Window) (px py : Option ℚ) (dur : Option ℚ) (cb : Option ℕ)
    (fuel : ℕ) (b1 b2 b3 b4 : ℤ)
    (hb : wd.bounds = ⟨(b1 : ℚ), (b2 : ℚ), (b3 : ℚ), (b4 : ℚ)⟩)
    (hq : st.queue = [])
    (htl : st.timers.lookup i = none)
    (hl : st.windows.lookup i = some wd)
    (hdm : wd.destroyed = false)
    (hd : 0 < effDur dur)
    (hfuel : effDur dur ≤ 8 * (fuel : ℚ))
    (hfuel1 : 1 ≤ fuel) :
    getBoundsD (run (List.replicate fuel Cmd.fire)
        (animateWindowPosition (some i) px py dur cb st)).windows i =
      ⟨px.getD (b1 : ℚ), py.getD (b2 : ℚ), (b3 : ℚ), (b4 : ℚ)⟩ ∧
    ∀ ev ∈ (run (List.replicate fuel Cmd.fire)
        (animateWindowPosition (some i) px py dur cb st)).events.drop
          st.events.length,
      ∀ sid r, ev = Event.setBoundsEv sid i r →
        r.width = (b3 : ℚ) ∧ r.height = (b4 : ℚ) ∧
        (px = none → r.x = (b1 : ℚ)) ∧ (py = none → r.y = (b2 : ℚ)) := by
  have hv := winDestroyedB_false _ _ _ hl hdm
  have hcall1 : animateWindowPosition (some i) px py dur cb st =
      animateWindowBounds (some i)
        ⟨some (px.getD (b1 : ℚ)), some (py.getD (b2 : ℚ)),
         some (b3 : ℚ), some (b4 : ℚ)⟩ dur cb (allocSid st) := by
    simp only [animateWindowPosition]
    rw [isWindowValid_valid (allocSid st) i hv]
    simp [allocSid, getBoundsD, hl, hb]
  have hclear : clearPending (some i) (allocSid (allocSid st)) =
      allocSid (allocSid st) := by
    simp [clearPending, allocSid, htl]
  have hcall2 : animateWindowBounds (some i)
      ⟨some (px.getD (b1 : ℚ)), some (py.getD (b2 : ℚ)),
       some (b3 : ℚ), some (b4 : ℚ)⟩ dur cb (allocSid st) =
      boundsStepRun
        ⟨i, st.nextSid + 1, wd.bounds,
          ⟨px.getD (b1 : ℚ), py.getD (b2 : ℚ), (b3 : ℚ), (b4 : ℚ)⟩, st.now,
          effDur dur, cb⟩
        { st with
          nextSid := st.nextSid + 2
          isAnimating := true } := by
    simp only [animateWindowBounds, hclear]
    rw [isWindowValid_valid (allocSid (allocSid st)) i hv]
    simp only [allocSid]
    simp [getBoundsD, hl, hb, mergeRect]
  have hp0 : progressOf (elapsedAt st.now st.now) (effDur dur) < 1 := by
    rw [elapsedAt_self, progressOf_zero]
    exact zero_lt_one
  have hfirst := boundsStepRun_schedule
    ⟨i, st.nextSid + 1, wd.bounds,
      ⟨px.getD (b1 : ℚ), py.getD (b2 : ℚ), (b3 : ℚ), (b4 : ℚ)⟩, st.now,
      effDur dur, cb⟩
    { st with
      nextSid := st.nextSid + 2
      isAnimating := true }
    wd hl hdm hp0
  set sB : BoundsSession :=
    ⟨i, st.nextSid + 1, wd.bounds,
      ⟨px.getD (b1 : ℚ), py.getD (b2 : ℚ), (b3 : ℚ), (b4 : ℚ)⟩, st.now,
      effDur dur, cb⟩ with hsB
  obtain ⟨n2, t2, evs, hrun, hevs⟩ :=
    boundsChain fuel
      { st with
        nextSid := st.nextSid + 2
        isAnimating := true
        windows := updateW st.windows i
          (fun w => { w with
            bounds := writtenBounds sB (elapsedAt st.now st.now) })
        events := st.events ++
          [Event.setBoundsEv (st.nextSid + 1) i
            (writtenBounds sB (elapsedAt st.now st.now))]
        queue := st.queue ++ [⟨st.nextTid, st.now + 8, Job.boundsStep sB⟩]
        nextTid := st.nextTid + 1
        timers := timersSet st.timers i st.nextTid }
      sB st.nextTid
      { wd with bounds := writtenBounds sB (elapsedAt st.now st.now) }
      (by simp [hq])
      (by
        rw [lookup_updateW_self, hl]
        rfl)
      hdm
      (lookup_timersSet_self _ _ _)
      hd
      (by
        rw [elapsedAt_self]
        simpa using hfuel)
      hfuel1
  have hfin : run (List.replicate fuel Cmd.fire)
      (animateWindowPosition (some i) px py dur cb st) =
      run (List.replicate fuel Cmd.fire)
        { st with
          nextSid := st.nextSid + 2
          isAnimating := true
          windows := updateW st.windows i
            (fun w => { w with
              bounds := writtenBounds sB (elapsedAt st.now st.now) })
          events := st.events ++
            [Event.setBoundsEv (st.nextSid + 1) i
              (writtenBounds sB (elapsedAt st.now st.now))]
          queue := st.queue ++ [⟨st.nextTid, st.now + 8, Job.boundsStep sB⟩]
          nextTid := st.nextTid + 1
          timers := timersSet st.timers i st.nextTid } := by
    rw [hcall1, hcall2, hfirst]
  have hfieldW : ∀ q : ℚ, (writtenBounds sB q).width = (b3 : ℚ) := by
    intro q
    simp only [hsB, writtenBounds, hb]
    exact writtenCoord_const b3 _ _
  have hfieldH : ∀ q : ℚ, (writtenBounds sB q).height = (b4 : ℚ) := by
    intro q
    simp only [hsB, writtenBounds, hb]
    exact writtenCoord_const b4 _ _
  have hfieldX : px = none → ∀ q : ℚ, (writtenBounds sB q).x = (b1 : ℚ) := by
    intro hpx q
    simp only [hsB, writtenBounds, hb, hpx, Option.getD_none]
    exact writtenCoord_const b1 _ _
  have hfieldY : py = none → ∀ q : ℚ, (writtenBounds sB q).y = (b2 : ℚ) := by
    intro hpy q
    simp only [hsB, writtenBounds, hb, hpy, Option.getD_none]
    exact writtenCoord_const b2 _ _
  rw [hfin, hrun]
  constructor
  · rw [getBoundsD, updateW_updateW, lookup_updateW_self, hl]
    rfl
  · intro ev hmem sid r hev
    have hdrop :
        ((st.events ++
          [Event.setBoundsEv (st.nextSid + 1) i
            (writtenBounds sB (elapsedAt st.now st.now))]) ++
          evs).drop st.events.length =
        [Event.setBoundsEv (st.nextSid + 1) i
          (writtenBounds sB (elapsedAt st.now st.now))] ++ evs := by
      rw [List.append_assoc, List.drop_left]
    rw [hdrop] at hmem
    have hrect : ∀ q : ℚ, r = writtenBounds sB q →
        r.width = (b3 : ℚ) ∧ r.height = (b4 : ℚ) ∧
        (px = none → r.x = (b1 : ℚ)) ∧ (py = none → r.y = (b2 : ℚ)) := by
      intro q hr
      subst hr
      exact ⟨hfieldW q, hfieldH q, fun hpx => hfieldX hpx q,
        fun hpy => hfieldY hpy q⟩
    have htgt : r = sB.target →
        r.width = (b3 : ℚ) ∧ r.height = (b4 : ℚ) ∧
        (px = none → r.x = (b1 : ℚ)) ∧ (py = none → r.y = (b2 : ℚ)) := by
      intro hr
      subst hr
      refine ⟨rfl, rfl, fun hpx => ?_, fun hpy => ?_⟩
      · simp [hsB, hpx]
      · simp [hsB, hpy]
    rcases List.mem_cons.1 hmem with h | h
    · rw [h] at hev
      injection hev with h1 h2 h3
      exact hrect _ h3.symm
    · rcases hevs ev h with ⟨q, hev2⟩ | hev2 | ⟨c, _, hev2⟩
      · rw [hev2] at hev
        injection hev with h1 h2 h3
        exact hrect _ h3.symm
      · rw [hev2] at hev
        injection hev with h1 h2 h3
        exact htgt h3.symm
      · rw [hev2] at hev
        injection hev

/-- C8 witness: the spec's own scenario — window at `{0,0,100,100}`,
`animateWindowPosition(w, {x: 200})`, run to completion: `y` stays `0` and
the final state is exactly `{200, 0, 100, 100}`. -/
theorem C8_position_preserves_unspecified_fields_witness :
    ((w100 : World).queue = [] ∧ w100.timers.lookup 0 = none ∧
     w100.windows.lookup 0 = some testWin ∧ testWin.destroyed = false ∧
     (0 : ℚ) < effDur (some 16) ∧ effDur (some 16) ≤ 8 * ((3 : ℕ) : ℚ)) ∧
    getBoundsD (run (List.replicate 3 Cmd.fire)
        (animateWindowPosition (some 0) (some 200) none (some 16) (some 4)
          w100)).windows 0 = ⟨200, 0, 100, 100⟩ :=
  ⟨⟨rfl, rfl, rfl, rfl, by with_unfolding_all decide,
    by with_unfolding_all decide⟩,
   (C8_position_preserves_unspecified_fields w100 0 testWin (some 200) none
      (some 16) (some 4) 3 0 0 100 100 rfl rfl rfl rfl rfl
      (by with_unfolding_all decide) (by with_unfolding_all decide)
      (by norm_num)).1.trans (by with_unfolding_all decide)⟩



/-- The world after `animateWindowBounds(w, {x:200}, {duration: 0})` on a
live window at `{0,0,100,100}`. -/
def c2runZero : World :=
  run [Cmd.animB (some 0) ⟨some 200, none, none, none⟩ (some 0) (some 9)] w100

/-- The world after `animateWindowBounds(w, {x:200}, {duration: -5})` on the
same window, followed by one timer fire. -/
def c2runNeg : World :=
  run [Cmd.animB (some 0) ⟨some 200, none, none, none⟩ (some (-5)) (some 9),
    Cmd.fire] w100

/-- C2: the claim says every animate operation invoked with `duration ≤ 0`
clamps progress to 1 on the very first step evaluation and jumps straight to
the target with no further scheduled steps.  The code does neither:
`options.duration || this.animationDuration` (line 132) treats `0` as falsy,
so an explicit `duration: 0` silently runs a 300 ms animation whose first
evaluation has progress 0, writes the *start* bounds, and leaves a scheduled
step behind; and a negative duration (truthy in JS) keeps every progress
value negative, so the first evaluation does not snap to the target and the
chain keeps writing and scheduling (two writes and a still-pending step
after one fire; by evaluation the second write is x = −3315, away from the
target) — and no completion is ever signalled.  This theorem evaluates the embedded code at
both failing inputs. -/
theorem C2_duration_zero_or_negative_is_not_snapped :
    effDur (some 0) = 300 ∧
    (getBoundsD c2runZero.windows 0 = ⟨0, 0, 100, 100⟩ ∧
     c2runZero.queue.length = 1 ∧
     c2runZero.events = [Event.setBoundsEv 0 0 ⟨0, 0, 100, 100⟩]) ∧
    (effDur (some (-5)) = -5 ∧
     c2runNeg.queue.length = 1 ∧
     c2runNeg.events.length = 2 ∧
     c2runNeg.events.countP (fun e => e == Event.completeEv 0 9) = 0) := by
  refine ⟨by with_unfolding_all decide, ⟨?_, ?_, ?_⟩, ?_, ?_, ?_, ?_⟩ <;>
    with_unfolding_all decide

/-- The world after running the legacy `animateWindow(w, 1/2, 0, {duration: 16})`
to completion on a live window at `{0,0,100,100}`. -/
def c3run : World :=
  run [Cmd.animW (some 0) (1/2) 0 none (some 16) (some 7), Cmd.fire, Cmd.fire]
    w100

/-- C3 counterexample: the claim promises that *every* animate mode ends by
writing the exact fully-resolved target.  The legacy `animateWindow` has no
exact-target final write (its final write is line 76's rounded interpolation
at `p = 1`), so a fractional target `x = 1/2` ends at `Math.round(1/2) = 1`,
not `1/2`: the session completes (`onComplete` fired, nothing pending) with
final geometry `x = 1 ≠ 1/2`. -/
theorem C3_counterexample_animateWindow_rounds_final :
    getBoundsD c3run.windows 0 = ⟨1, 0, 100, 100⟩ ∧
    c3run.queue = [] ∧
    c3run.events.countP (fun e => e == Event.completeEv 0 7) = 1 ∧
    ((1 : ℚ) ≠ 1 / 2) := by
  refine ⟨?_, ?_, ?_, ?_⟩ <;> with_unfolding_all decide

/-- C3 (amended): once elapsed ≥ duration, a step's final write is the exact
fully-resolved target for `animateWindowBounds`/`animateWindowPosition`
(bounds sessions) and for `fade` (exact opacity); for the legacy
`animateWindow` it is the componentwise-*rounded* target, which coincides
with the exact target exactly when the target coordinates are integers. -/
theorem C3_completion_convergence :
    (∀ (s : BoundsSession) (st : World) (wd : Window),
      st.windows.lookup s.win = some wd → wd.destroyed = false →
      0 < s.duration → s.duration ≤ elapsedAt st.now s.startTime →
      getBoundsD (boundsStepRun s st).windows s.win = s.target) ∧
    (∀ (s : FadeSession) (st : World) (wd : Window),
      st.windows.lookup s.win = some wd → wd.destroyed = false →
      0 < s.duration → s.duration ≤ elapsedAt st.now s.startTime →
      getOpacityD (fadeStepRun s st).windows s.win = s.toOpacity) ∧
    (∀ (s : WinSession) (st : World) (wd : Window),
      st.windows.lookup s.win = some wd → wd.destroyed = false →
      0 < s.duration → s.duration ≤ elapsedAt st.now s.startTime →
      getBoundsD (winStepRun s st).windows s.win =
        ⟨(jsRound s.targetX : ℚ), (jsRound s.targetY : ℚ), s.width, s.height⟩ ∧
      (∀ m k : ℤ, s.targetX = (m : ℚ) → s.targetY = (k : ℚ) →
        getBoundsD (winStepRun s st).windows s.win =
          ⟨s.targetX, s.targetY, s.width, s.height⟩)) := by
  refine ⟨fun s st wd hl hdm hd he => ?_, fun s st wd hl hdm hd he => ?_,
    fun s st wd hl hdm hd he => ?_⟩
  · exact boundsStepRun_complete_bounds s st wd hl hdm hd he
  · exact fadeStepRun_complete_opacity s st wd hl hdm hd he
  · refine ⟨winStepRun_complete_bounds s st wd hl hdm hd he, ?_⟩
    intro m k hm hk
    rw [winStepRun_complete_bounds s st wd hl hdm hd he, hm, hk,
      jsRound_intCast, jsRound_intCast]

/-- C3 witness: a bounds session and a legacy session evaluated at a
concrete completed instant. -/
theorem C3_completion_convergence_witness :
    ((initWorld [(0, testWin)]).windows.lookup 0 = some testWin ∧
     testWin.destroyed = false ∧ (0 : ℚ) < 16 ∧
     (16 : ℚ) ≤ elapsedAt 16 0) ∧
    getBoundsD
      (boundsStepRun ⟨0, 0, ⟨0, 0, 100, 100⟩, ⟨200, 0, 100, 100⟩, 0, 16, none⟩
        { w100 with now := 16 }).windows 0 = ⟨200, 0, 100, 100⟩ :=
  ⟨⟨rfl, rfl, by norm_num, by norm_num [elapsedAt]⟩,
    C3_completion_convergence.1
      ⟨0, 0, ⟨0, 0, 100, 100⟩, ⟨200, 0, 100, 100⟩, 0, 16, none⟩
      { w100 with now := 16 } testWin rfl rfl (by norm_num)
      (by norm_num [elapsedAt])⟩

/-- The world after `animateWindowBounds(w, {x: 3/5}, {duration: 16})` run to
completion on a live window at `{0,0,100,100}`. -/
def c6run : World :=
  run [Cmd.animB (some 0) ⟨some (3 / 5), none, none, none⟩ (some 16) none,
    Cmd.fire, Cmd.fire] w100

/-- C6 counterexample: with the fractional resolved target `x = 3/5` the
rounded interpolation *overshoots* the target — the chain writes `x = 1`
(twice: at the mid step and at the final step's eased write) before the
exact-target write `x = 3/5`, so the written sequence `0, 1, 1, 3/5` is not
monotone toward the target and passes beyond it, refuting the claim for
sessions whose resolved target is not integral. -/
theorem C6_counterexample_fractional_target_overshoots :
    c6run.events.countP
      (fun e => e == Event.setBoundsEv 0 0 ⟨1, 0, 100, 100⟩) = 2 ∧
    c6run.events.getLast? = some (Event.setBoundsEv 0 0 ⟨3 / 5, 0, 100, 100⟩) ∧
    c6run.events.head? = some (Event.setBoundsEv 0 0 ⟨0, 0, 100, 100⟩) ∧
    ((3 : ℚ) / 5 < 1) := by
  refine ⟨?_, ?_, ?_, ?_⟩ <;> with_unfolding_all decide

/-- C6 (amended): for integer start and target values — which all Electron
window geometry is — each written coordinate moves monotonically from start
toward target with no overshoot: the write at a later elapsed time is no
closer to the start, and every write lies between start and target.  The
opacity path (`fade`) is not rounded, so it is monotone and bounded without
any integrality assumption. -/
theorem C6_monotone_no_overshoot :
    (∀ (a b : ℤ) (dur e1 e2 : ℚ), 0 < dur → 0 ≤ e1 → e1 ≤ e2 →
      (((a : ℚ) ≤ (b : ℚ) →
          writtenCoord a b dur e1 ≤ writtenCoord a b dur e2) ∧
       ((b : ℚ) ≤ (a : ℚ) →
          writtenCoord a b dur e2 ≤ writtenCoord a b dur e1)) ∧
      (min (a : ℚ) (b : ℚ) ≤ writtenCoord a b dur e1 ∧
       writtenCoord a b dur e1 ≤ max (a : ℚ) (b : ℚ))) ∧
    (∀ (u v dur e1 e2 : ℚ), 0 < dur → 0 ≤ e1 → e1 ≤ e2 →
      ((u ≤ v → fadeValue u v dur e1 ≤ fadeValue u v dur e2) ∧
       (v ≤ u → fadeValue u v dur e2 ≤ fadeValue u v dur e1)) ∧
      (min u v ≤ fadeValue u v dur e1 ∧ fadeValue u v dur e1 ≤ max u v)) := by
  constructor
  · intro a b dur e1 e2 hd h0 h12
    refine ⟨⟨fun hab => writtenCoord_mono_of_le dur hd hab h0 h12,
      fun hab => writtenCoord_antitone_of_ge dur hd hab h0 h12⟩, ?_⟩
    exact writtenCoord_between dur hd h0
  · intro u v dur e1 e2 hd h0 h12
    refine ⟨⟨fun hab => lerp_mono_of_le hab (easedOf_mono hd h0 h12),
      fun hab => lerp_antitone_of_ge hab (easedOf_mono hd h0 h12)⟩, ?_⟩
    exact lerp_between (easedOf_nonneg hd h0) (easedOf_le_one hd h0)

/-- C6 witness: monotone, in-range writes at concrete sample times. -/
theorem C6_monotone_no_overshoot_witness :
    ((0 : ℚ) < 16 ∧ (0 : ℚ) ≤ 8 ∧ (8 : ℚ) ≤ 12 ∧
      ((0 : ℤ) : ℚ) ≤ ((100 : ℤ) : ℚ)) ∧
    writtenCoord (0 : ℤ) (100 : ℤ) 16 8 ≤ writtenCoord (0 : ℤ) (100 : ℤ) 16 12 :=
  ⟨⟨by norm_num, by norm_num, by norm_num, by norm_num⟩,
    ((C6_monotone_no_overshoot.1 0 100 16 8 12 (by norm_num) (by norm_num)
      (by norm_num)).1).1 (by norm_num)⟩

/-- A legacy `animateWindow(w, 300, 300, {duration: 40})` in flight (its
call performed the first synchronous write). -/
def c5mid : World := run [Cmd.animW (some 0) 300 300 none (some 40) none] w100

/-- Then `animateWindowBounds(w, {x: 7}, {duration: 40})` on the *same*
window, followed by four timer fires. -/
def c5fin : World :=
  run [Cmd.animB (some 0) ⟨some 7, none, none, none⟩ (some 40) none,
    Cmd.fire, Cmd.fire, Cmd.fire, Cmd.fire] c5mid

/-- C5 counterexample: the legacy `animateWindow` chain is scheduled with a
bare `setTimeout` (line 79) and never recorded in the timer table, so the
supersede-on-call rule of `animateWindowBounds` cannot cancel it: after the
bounds call begins, *both* chains (call ids 0 and 1) keep invoking the
window's `setBounds` — two writes by the legacy chain and three by the
bounds chain interleave — refuting "each window's bounds setter is invoked
from at most one live step chain at a time across all engine operations
(including the legacy animateWindow path)". -/
theorem C5_counterexample_two_live_chains :
    c5mid.events.length = 1 ∧
    (c5fin.events.drop 1).countP
      (fun e => match e with
        | Event.setBoundsEv 0 0 _ => true
        | _ => false) = 2 ∧
    (c5fin.events.drop 1).countP
      (fun e => match e with
        | Event.setBoundsEv 1 0 _ => true
        | _ => false) = 3 := by
  refine ⟨?_, ?_, ?_⟩ <;> with_unfolding_all decide

/-- C5 (amended): the timer table itself does enforce "at most one tracked
pending step per window" at every reachable engine state — its keys are
pairwise distinct after any command sequence from a fresh engine — and
bounds/position chains supersede on call; but the legacy `animateWindow`
path is outside the table, so its chain can interleave `setBounds` writes
with a bounds-animation chain on the same window. -/
theorem C5_timer_table_at_most_one_entry_per_window
    (ws : List (ℕ × Window)) (cmds : List Cmd) :
    ((run cmds (initWorld ws)).timers.map Prod.fst).Nodup :=
  timersKeysNodup_run cmds (initWorld ws)
    (by simp [initWorld, timersKeysNodup])

/-- A bounds session (callback 0, duration 40) superseded mid-flight by a
second bounds call (callback 1, duration 16) on the same window, run to
quiescence. -/
def c7fin : World :=
  run [Cmd.animB (some 0) ⟨some 100, none, none, none⟩ (some 40) (some 0),
    Cmd.fire,
    Cmd.animB (some 0) ⟨some 200, none, none, none⟩ (some 16) (some 1),
    Cmd.fire, Cmd.fire, Cmd.fire] w100

/-- C7 counterexample: the superseding call `clearTimeout`s the first
session's pending step (lines 118–120) and the first session's `onComplete`
is then *never* invoked — zero times, not exactly once: at quiescence
(empty queue, so it can never fire later) the trace holds no completion for
call 0 while call 1 completed once. -/
theorem C7_counterexample_superseded_session_never_completes :
    c7fin.events.countP (fun e => e == Event.completeEv 0 0) = 0 ∧
    c7fin.events.countP (fun e => e == Event.completeEv 1 1) = 1 ∧
    c7fin.queue = [] := by
  refine ⟨?_, ?_, ?_⟩ <;> with_unfolding_all decide

/-- A fade (callback 5) in flight when `destroy()` is called, then two timer
fires. -/
def c10mid : World := run [Cmd.fadeC (some 0) none (1 / 2) (some 16) (some 5)] w100

/-- The same world after `destroy()` and two subsequent fires. -/
def c10fin : World := run [Cmd.mgrDestroy, Cmd.fire, Cmd.fire] c10mid

/-- C10 counterexample: `destroy()` cancels only the timers stored in the
timer table (line 194), and `fade` never records its `setTimeout` there
(line 108) — so a fade step pending at destroy time still fires, keeps
writing opacity (three `setOpacity` calls after destroy) and *does* deliver
its completion signal, refuting "destroy() cancels every pending scheduled
step … with no completion signal delivered and no further setter writes". -/
theorem C10_counterexample_fade_survives_destroy :
    c10mid.queue.length = 1 ∧
    (c10fin.events.drop c10mid.events.length).countP
      (fun e => match e with
        | Event.setOpacityEv 0 0 _ => true
        | _ => false) = 3 ∧
    c10fin.events.getLast? = some (Event.completeEv 0 5) := by
  refine ⟨?_, ?_, ?_⟩ <;> with_unfolding_all decide

/-- The world of a bounds animation whose window is destroyed mid-flight,
after the already-scheduled step fires. -/
def c9run : World :=
  run [Cmd.animB (some 0) ⟨some 100, none, none, none⟩ (some 40) (some 0),
    Cmd.fire, Cmd.winKill 0, Cmd.fire] w100

/-- C9 counterexample: when the window is destroyed mid-animation the pending
step's validity check (`_isWindowValid`, lines 32–41) deletes the last timer
table entry but performs *no* recomputation of `isAnimating` — the run ends
with an empty timer table, an empty queue, and the flag still `true`,
refuting "whenever the timer table becomes empty, the flag is recomputed to
false, including when the last entry is removed because a window became
invalid". -/
theorem C9_counterexample_flag_stuck_true :
    c9run.timers = [] ∧ c9run.queue = [] ∧ c9run.isAnimating = true := by
  refine ⟨?_, ?_, ?_⟩ <;> with_unfolding_all decide

/-- C9 (amended): the flag is recomputed from table emptiness only in the
*normal completion* branch of a bounds step (lines 156–160): there the entry
is deleted and the flag becomes false exactly when the table is then empty.
On the invalidation path the flag is left untouched (so it can stay `true`
with an empty table until some later completion or `destroy()`). -/
theorem C9_flag_recompute_only_on_completion :
    (∀ (s : BoundsSession) (st : World) (wd : Window),
      st.windows.lookup s.win = some wd → wd.destroyed = false →
      0 < s.duration → s.duration ≤ elapsedAt st.now s.startTime →
      (boundsStepRun s st).timers = timersDelete st.timers s.win ∧
      (boundsStepRun s st).isAnimating =
        (if (timersDelete st.timers s.win).isEmpty then false
         else st.isAnimating)) ∧
    (∀ (s : BoundsSession) (st : World),
      winDestroyedB st.windows s.win = true →
      (boundsStepRun s st).isAnimating = st.isAnimating) := by
  constructor
  · intro s st wd hl hdm hd he
    have hv := winDestroyedB_false _ _ _ hl hdm
    have hp : ¬ progressOf (elapsedAt st.now s.startTime) s.duration < 1 := by
      rw [progressOf_eq_one hd he]
      exact lt_irrefl 1
    rw [boundsStepRun, isWindowValid_valid st s.win hv]
    simp only [if_neg hp, emitComplete_timers, emitComplete_isAnimating]
    constructor
    · split <;> simp [doSetBounds]
    · split <;> rename_i hsplit <;>
        simp only [doSetBounds] at hsplit ⊢ <;> simp_all [doSetBounds]
  · intro s st hv
    rw [boundsStepRun]
    simp only [isWindowValid, hv]
    cases htl : st.timers.lookup s.win <;>
      simp [emitComplete_isAnimating]

/-- C9 witness: the completion branch at a concrete instant with a
single-entry table. -/
theorem C9_flag_recompute_only_on_completion_witness :
    ((initWorld [(0, testWin)]).windows.lookup 0 = some testWin ∧
     testWin.destroyed = false ∧ (0 : ℚ) < 16 ∧ (16 : ℚ) ≤ elapsedAt 16 0) ∧
    (boundsStepRun ⟨0, 0, ⟨0, 0, 100, 100⟩, ⟨200, 0, 100, 100⟩, 0, 16, none⟩
      { w100 with now := 16, timers := [(0, 3)] }).isAnimating =
      (if (timersDelete [(0, 3)] 0).isEmpty then false
       else ({ w100 with now := 16, timers := [(0, 3)] } : World).isAnimating) :=
  ⟨⟨rfl, rfl, by norm_num, by norm_num [elapsedAt]⟩,
    (C9_flag_recompute_only_on_completion.1
      ⟨0, 0, ⟨0, 0, 100, 100⟩, ⟨200, 0, 100, 100⟩, 0, 16, none⟩
      { w100 with now := 16, timers := [(0, 3)] } testWin rfl rfl (by norm_num)
      (by norm_num [elapsedAt])).2⟩

/-- C4: calling any of the four animate operations on an absent (`null`)
or already-destroyed window appends exactly one `onComplete` invocation to
the trace — synchronously, within the call — and performs no `setBounds`
or `setOpacity` call and no window mutation at all. -/
theorem C4_invalid_window_short_circuit (st : World) (oi : Option ℕ) (c : ℕ)
    (h : oi = none ∨ ∃ i wd, oi = some i ∧ st.windows.lookup i = some wd ∧
      wd.destroyed = true) :
    (∀ tx ty size dur,
      (animateWindow oi tx ty size dur (some c) st).events =
        st.events ++ [Event.completeEv st.nextSid c] ∧
      (animateWindow oi tx ty size dur (some c) st).windows = st.windows) ∧
    (∀ t dur,
      (animateWindowBounds oi t dur (some c) st).events =
        st.events ++ [Event.completeEv st.nextSid c] ∧
      (animateWindowBounds oi t dur (some c) st).windows = st.windows) ∧
    (∀ px py dur,
      (animateWindowPosition oi px py dur (some c) st).events =
        st.events ++ [Event.completeEv st.nextSid c] ∧
      (animateWindowPosition oi px py dur (some c) st).windows = st.windows) ∧
    (∀ fr v dur,
      (fade oi fr v dur (some c) st).events =
        st.events ++ [Event.completeEv st.nextSid c] ∧
      (fade oi fr v dur (some c) st).windows = st.windows) := by
  rcases h with h | ⟨i, wd, hoi, hlook, hdes⟩
  · subst h
    refine ⟨fun tx ty size dur => ?_, fun t dur => ?_, fun px py dur => ?_,
      fun fr v dur => ?_⟩ <;>
      simp [animateWindow, animateWindowBounds, animateWindowPosition, fade,
        isWindowValid, emitComplete, allocSid, clearPending]
  · subst hoi
    have hdb : winDestroyedB st.windows i = true := by
      simp [winDestroyedB, hlook, hdes]
    refine ⟨fun tx ty size dur => ?_, fun t dur => ?_, fun px py dur => ?_,
      fun fr v dur => ?_⟩ <;>
    · simp only [animateWindow, animateWindowBounds, animateWindowPosition,
        fade, isWindowValid, hdb, allocSid, clearPending]
      cases htl : (st.timers.lookup i) <;>
        simp [emitComplete, htl, hdb, clearT, timersDelete]

/-- C4 witness: a destroyed window, concretely. -/
theorem C4_invalid_window_short_circuit_witness :
    (some 0 = (none : Option ℕ) ∨ ∃ i wd, (some 0 : Option ℕ) = some i ∧
      (initWorld [(0, ⟨⟨0, 0, 100, 100⟩, 1, true⟩)]).windows.lookup i = some wd ∧
      wd.destroyed = true) ∧
    (animateWindowBounds (some 0) ⟨some 200, none, none, none⟩ none (some 3)
      (initWorld [(0, ⟨⟨0, 0, 100, 100⟩, 1, true⟩)])).events =
      (initWorld [(0, ⟨⟨0, 0, 100, 100⟩, 1, true⟩)]).events ++
        [Event.completeEv 0 3] := by
  refine ⟨Or.inr ⟨0, ⟨⟨0, 0, 100, 100⟩, 1, true⟩, rfl, by with_unfolding_all decide, rfl⟩, ?_⟩
  exact ((C4_invalid_window_short_circuit
    (initWorld [(0, ⟨⟨0, 0, 100, 100⟩, 1, true⟩)]) (some 0) 3
    (Or.inr ⟨0, ⟨⟨0, 0, 100, 100⟩, 1, true⟩, rfl, by with_unfolding_all decide, rfl⟩)).2.1
    ⟨some 200, none, none, none⟩ none).1

/-- C7 (amended): the claimed exactly-once guarantee is too strong — a
superseded session never completes (see the C7 counterexample) — but the
at-most-once half is a real invariant of the engine: over every command
sequence driving a fresh engine (any interleaving of the four animate
operations, `destroy()`, external window destruction, clock advance and
timeout firing), each call's `onComplete` continuation is invoked at most
once. -/
theorem C7_onComplete_at_most_once (ws : List (ℕ × Window))
    (cmds : List Cmd) (sid : ℕ) :
    complCount (run cmds (initWorld ws)).events sid ≤ 1 := by
  have h := (OnceInv_run cmds (initWorld ws) (OnceInv_initWorld ws) sid).1
  rw [sidLive] at h
  omega

/-- A bounds animation in flight: one pending step, tracked in the timer
map. -/
def c10bst : World :=
  run [Cmd.animB (some 0) ⟨some 200, none, none, none⟩ none (some 7)] w100

/-- C10 (amended): `destroy()` empties the timer table, resets the flag,
invokes no `onComplete` itself (the event trace is unchanged), and cancels
every map-tracked pending step; any call all of whose pending steps were
cancelled (its step count in the remaining queue is zero — true for every
bounds/position chain, whose single pending step is always tracked) stays
silent forever under the event loop: no completion signal and no further
setter write is ever emitted with its call id.  The original claim's
universal form is refuted by the C10 counterexample: `fade` (and legacy
`animateWindow`) steps are scheduled with a bare `setTimeout` that is never
recorded in the map, so they survive `destroy()` and keep writing and even
complete. -/
theorem C10_destroy_cancels_tracked_silently (st : World) (sid : ℕ)
    (cmds : List Cmd)
    (hq : queueCount (destroyMgr st).queue sid = 0)
    (hcs : ∀ c ∈ cmds, passive c = true) :
    (destroyMgr st).timers = [] ∧
    (destroyMgr st).isAnimating = false ∧
    (destroyMgr st).events = st.events ∧
    (∀ e ∈ (destroyMgr st).queue, tidTracked st.timers e.tid = false) ∧
    evCount (run cmds (destroyMgr st)).events sid = evCount st.events sid := by
  refine ⟨rfl, rfl, rfl, ?_, ?_⟩
  · intro e he
    simp only [destroyMgr, List.mem_filter, decide_eq_true_eq] at he
    simpa using he.2
  · exact (quiet_run cmds hcs (destroyMgr st) sid hq).1

/-- C10 witness: a tracked bounds chain in flight, destroyed, then the
event loop runs on; its call id 0 stays silent. -/
theorem C10_destroy_cancels_tracked_silently_witness :
    queueCount (destroyMgr c10bst).queue 0 = 0 ∧
    (∀ c ∈ [Cmd.fire, Cmd.tick 400, Cmd.fire], passive c = true) ∧
    evCount (run [Cmd.fire, Cmd.tick 400, Cmd.fire] (destroyMgr c10bst)).events 0
      = evCount c10bst.events 0 :=
  ⟨by with_unfolding_all decide, by decide,
   (C10_destroy_cancels_tracked_silently c10bst 0
     [Cmd.fire, Cmd.tick 400, Cmd.fire]
     (by with_unfolding_all decide) (by decide)).2.2.2.2⟩

end SmoothMovement
